import Mathlib

unseal Rat.mul Rat.add Rat.sub Rat.inv

/-!
Verification of the SearchIndex component of mindkeep-desktop
(src/modules/performance.js, class SearchIndex).

Shallow embedding conventions:
  * JS strings are modelled as `List Char` (the code only ever treats them
    as character sequences); `String.prototype.toLowerCase` is modelled by
    `Char.toLower` (ASCII case mapping, which is what the code relies on).
  * JS `Map` objects are modelled as insertion-ordered association lists
    (`jmGet`, `jmSet`, `jmDelete` mirror `Map.get` / `Map.set` /
    `Map.delete`), and JS `Set` objects as insertion-ordered duplicate-free
    lists (`jsAdd`, `jsDelete` mirror `Set.add` / `Set.delete`).
  * JS numbers are modelled by `ℚ` (the scoring arithmetic is small exact
    sums, divisions and comparisons); `Date.now()` is passed in as an
    explicit parameter `now`, and `new Date(metadata.updatedAt).getTime()`
    is modelled by storing the parsed timestamp in the metadata.
  * `String.prototype.split(/\\s+/)` is modelled by `splitAtSpaces`, which
    splits at every single whitespace character.  The regex split differs
    from the per-character split only in that adjacent separators produce
    extra empty fields; every use in the source immediately filters the
    fields by a positive length bound (length > 1 in tokenize, length >= 3
    in findFuzzyMatches), under which the two splits give identical
    results, in the same order and with the same multiplicities.
-/

namespace MindKeep

/-- JS regex class \\w, that is [A-Za-z0-9_]. -/
def isWordChar (c : Char) : Bool := c.isAlphanum || c = '_'

/-- JS regex class \\s restricted to the ASCII whitespace characters. -/
def isSpaceChar (c : Char) : Bool :=
  c = ' ' || c = '\t' || c = '\n' || c = '\r' || c = '\x0b' || c = '\x0c'

/-- The replace step of tokenize: replace(/[^\\w\\s]/g, ' ') acting on one
character. -/
def punctToSpace (c : Char) : Char :=
  if !(isWordChar c) && !(isSpaceChar c) then ' ' else c

/-- Lowercasing followed by punctuation stripping, the shared normalization
text.toLowerCase().replace(/[^\\w\\s]/g, ' ') used by tokenize. -/
def normalizeText (s : List Char) : List Char :=
  (s.map Char.toLower).map punctToSpace

/-- Splitting at each whitespace character; see the header comment for why
this models split(/\\s+/) faithfully through the length filters that follow
every use of it in the source. -/
def splitAtSpaces : List Char → List (List Char)
  | [] => [[]]
  | c :: cs =>
    if isSpaceChar c then [] :: splitAtSpaces cs
    else
      match splitAtSpaces cs with
      | [] => [[c]]
      | f :: fs => (c :: f) :: fs

/-- JS String.prototype.trim, dropping whitespace from both ends. -/
def trimWS (s : List Char) : List Char :=
  ((s.dropWhile isSpaceChar).reverse.dropWhile isSpaceChar).reverse

/-- SearchIndex.tokenize (performance.js lines 333-346): on empty input
return []; otherwise lowercase, replace non word, non whitespace characters
by spaces, split on whitespace, keep tokens of length > 1, append the
trimmed normalized whole text as one extra token, and finally drop
zero-length tokens. -/
def tokenize (text : List Char) : List (List Char) :=
  if text.isEmpty then []
  else
    (((splitAtSpaces (normalizeText text)).filter (fun t => t.length > 1)) ++
        [trimWS (normalizeText text)]).filter (fun t => t.length > 0)

example : tokenize "Hello, world!".data =
    ["hello".data, "world".data, "hello  world".data] := by decide

example : tokenize "".data = [] := by decide

example : tokenize " ".data = [] := by decide

example : tokenize "a".data = ["a".data] := by decide

/-- Modelled from the claim C4 reference pipeline, word for word: lowercase
the text, replace every character that is neither a word character nor
whitespace with a space, split on runs of whitespace, keep the resulting
words of length at least 2, and append one extra token equal to the entire
normalized, punctuation-stripped, trimmed content string; empty input
yields the empty sequence. -/
def tokenizeSpec (text : List Char) : List (List Char) :=
  if text.isEmpty then []
  else
    ((splitAtSpaces (normalizeText text)).filter (fun t => 2 ≤ t.length)) ++
      [trimWS (normalizeText text)]

/-- Amended reference pipeline: identical to `tokenizeSpec` except that the
whole-text token is appended only when it is non-empty, which is what the
final length > 0 filter in the source enforces. -/
def tokenizeAmended (text : List Char) : List (List Char) :=
  if text.isEmpty then []
  else
    ((splitAtSpaces (normalizeText text)).filter (fun t => 2 ≤ t.length)) ++
      (if 0 < (trimWS (normalizeText text)).length then
        [trimWS (normalizeText text)] else [])

end MindKeep

namespace MindKeep

/-- Document identifiers are JS strings. -/
abbrev Id := List Char

/-- The metadata bag passed to addDocument; only title and updatedAt are
read by the scoring code.  A JS falsy title (absent or the empty string)
is modelled as an empty or absent option; updatedAt stores the parsed
timestamp new Date(metadata.updatedAt).getTime() in milliseconds. -/
structure Metadata where
  title : Option (List Char)
  updatedAt : Option ℚ
deriving DecidableEq

/-- A stored document: the (content, metadata) pair kept in this.documents. -/
structure Document where
  content : List Char
  metadata : Metadata
deriving DecidableEq

/-- The SearchIndex state: this.index (JS Map from token to JS Set of ids)
and this.documents (JS Map from id to document), both as insertion-ordered
association lists. -/
structure SearchIndex where
  index : List (List Char × List Id)
  documents : List (Id × Document)
deriving DecidableEq

/-- JS Map.prototype.get: the value at the first matching key. -/
def jmGet {β : Type} (m : List (Id × β)) (k : Id) : Option β :=
  match m with
  | [] => none
  | e :: es => if e.1 = k then some e.2 else jmGet es k

/-- JS Map.prototype.set: overwrite in place if the key is present,
otherwise append at the end (Map iteration is in insertion order). -/
def jmSet {β : Type} (m : List (Id × β)) (k : Id) (v : β) : List (Id × β) :=
  match m with
  | [] => [(k, v)]
  | e :: es => if e.1 = k then (k, v) :: es else e :: jmSet es k v

/-- JS Map.prototype.delete: remove the entry with the given key. -/
def jmDelete {β : Type} (m : List (Id × β)) (k : Id) : List (Id × β) :=
  match m with
  | [] => []
  | e :: es => if e.1 = k then es else e :: jmDelete es k

/-- JS Set.prototype.add: append if not already a member. -/
def jsAdd (s : List Id) (x : Id) : List Id :=
  if x ∈ s then s else s ++ [x]

/-- JS Set.prototype.delete: remove the member (sets hold no duplicates). -/
def jsDelete (s : List Id) (x : Id) : List Id := s.erase x

/-- SearchIndex.addDocument (performance.js lines 171-182): store the
document, tokenize the content and add the id to every token's posting
set, creating the set when absent. -/
def addDocument (st : SearchIndex) (id : Id) (content : List Char)
    (metadata : Metadata) : SearchIndex :=
  { index :=
      (tokenize content).foldl (fun idx token =>
        match jmGet idx token with
        | none => jmSet idx token [id]
        | some s => jmSet idx token (jsAdd s id)) st.index
    documents := jmSet st.documents id ⟨content, metadata⟩ }

/-- SearchIndex.removeDocument (performance.js lines 185-201): when the id
is stored, retokenize its content, delete the id from every such token's
posting set, dropping sets that become empty, then delete the document. -/
def removeDocument (st : SearchIndex) (id : Id) : SearchIndex :=
  match jmGet st.documents id with
  | none => st
  | some doc =>
    { index :=
        (tokenize doc.content).foldl (fun idx token =>
          match jmGet idx token with
          | none => idx
          | some s =>
            if (jsDelete s id).length = 0 then jmDelete idx token
            else jmSet idx token (jsDelete s id)) st.index
      documents := jmDelete st.documents id }

/-- SearchIndex.clear (performance.js lines 349-352). -/
def clearIndex (_st : SearchIndex) : SearchIndex := ⟨[], []⟩

/-- The result record of SearchIndex.getStats. -/
structure Stats where
  documentsCount : Nat
  tokensCount : Nat
  averageTokensPerDocument : ℚ
deriving DecidableEq

/-- SearchIndex.getStats (performance.js lines 355-363). -/
def getStats (st : SearchIndex) : Stats :=
  { documentsCount := st.documents.length
    tokensCount := st.index.length
    averageTokensPerDocument :=
      if 0 < st.documents.length then
        ((st.documents.map (fun e => ((tokenize e.2.content).length : ℚ))).sum) /
          (st.documents.length : ℚ)
      else 0 }

/-- The posting set of a token: the members of the set stored in the index
under that token, or empty when the token is absent. -/
def postings (st : SearchIndex) (tok : List Char) : List Id :=
  (jmGet st.index tok).getD []

example :
    (addDocument ⟨[], []⟩ "d1".data "hi ho".data ⟨none, none⟩).index =
      [("hi".data, ["d1".data]), ("ho".data, ["d1".data]),
       ("hi ho".data, ["d1".data])] := by decide

example :
    removeDocument (addDocument ⟨[], []⟩ "d1".data "hi ho".data ⟨none, none⟩)
      "d1".data = ⟨[], []⟩ := by decide

/-- Helper for jsIncludes: whether the first list begins with the second. -/
def listStarts : List Char → List Char → Bool
  | _, [] => true
  | [], _ :: _ => false
  | h :: hs, n :: ns => h = n && listStarts hs ns

/-- JS String.prototype.includes: hay contains needle as a contiguous
substring (every string contains the empty string). -/
def jsIncludes (hay needle : List Char) : Bool :=
  match hay with
  | [] => listStarts [] needle
  | _ :: hs => listStarts hay needle || jsIncludes hs needle

/-- Inner cells of one row of the Levenshtein matrix
(SearchIndex.levenshteinDistance, performance.js lines 315-327): walking
str1 while carrying matrix entries prev row j-1 (diag), current row j-1
(left) and the remaining tail of the previous row (up :: ups). -/
def levCells (c2 : Char) : List Char → Nat → Nat → List Nat → List Nat
  | [], _, _, _ => []
  | _ :: _, _, _, [] => []
  | c1 :: cs, diag, left, up :: ups =>
    let v := if c2 = c1 then diag else 1 + min diag (min left up)
    v :: levCells c2 cs up v ups

/-- Row i of the Levenshtein matrix computed from row i-1: the first cell
is the row index i (matrix[i] = [i] initialization in the source). -/
def levRow (str1 : List Char) (prev : List Nat) (c2 : Char) (i : Nat) :
    List Nat :=
  match prev with
  | [] => [i]
  | p0 :: ps => i :: levCells c2 str1 p0 i ps

/-- All remaining rows of the matrix, folding over the characters of str2
with the running row index. -/
def levRows (str1 : List Char) : List Char → List Nat → Nat → List Nat
  | [], prev, _ => prev
  | c2 :: rest, prev, i => levRows str1 rest (levRow str1 prev c2 (i + 1)) (i + 1)

/-- SearchIndex.levenshteinDistance (performance.js lines 304-330): the
(str2.length+1) x (str1.length+1) dynamic-programming matrix, built row by
row; the result is the last cell of the last row. -/
def levenshteinDistance (str1 str2 : List Char) : Nat :=
  (levRows str1 str2 (List.range (str1.length + 1)) 0).getLastD 0

example : levenshteinDistance "kitten".data "sitting".data = 3 := by decide
example : levenshteinDistance "alpha".data "beta".data = 4 := by decide
example : levenshteinDistance "".data "abc".data = 3 := by decide

/-- SearchIndex.calculateSimilarity (performance.js lines 293-301). -/
def calculateSimilarity (str1 str2 : List Char) : ℚ :=
  let longer := if str1.length > str2.length then str1 else str2
  let shorter := if str1.length > str2.length then str2 else str1
  if longer.length = 0 then 1
  else ((longer.length : ℚ) - (levenshteinDistance longer shorter : ℚ)) /
    (longer.length : ℚ)

/-- SearchIndex.findFuzzyMatches (performance.js lines 270-290): content is
the already-lowercased document body; every whitespace-delimited word of
length at least 3 is compared with the (length at least 3) token: substring
containment in either direction counts 1, otherwise a similarity above 0.7
contributes its fractional value. -/
def findFuzzyMatches (content token : List Char) : ℚ :=
  (splitAtSpaces content).foldl (fun acc word =>
    if 3 ≤ word.length ∧ 3 ≤ token.length then
      if jsIncludes word token || jsIncludes token word then acc + 1
      else
        if 7 / 10 < calculateSimilarity word token then
          acc + calculateSimilarity word token
        else acc
    else acc) 0

/-- The guarded title test metadata.title && metadata.title.toLowerCase()
.includes(needle): a JS falsy (absent) title yields false.  An empty title
(also falsy in JS) is modelled by some [] and likewise yields false here,
because every needle reaching this test is non-empty. -/
def titleHas (titleL : Option (List Char)) (needle : List Char) : Bool :=
  match titleL with
  | some t => jsIncludes t needle
  | none => false

/-- The exact-phrase component of the score: +100 when the lowercased
content contains the lowercased query, +50 more when the title does too
(performance.js lines 217-224). -/
def phraseScore (content : List Char) (titleL : Option (List Char))
    (queryLower : List Char) : ℚ :=
  if jsIncludes content queryLower then
    100 + (if titleHas titleL queryLower then 50 else 0)
  else 0

/-- One step of the token loop: +10 for a token contained in the content,
+20 more when the title contains it (performance.js lines 227-238). -/
def tokenStep (content : List Char) (titleL : Option (List Char)) (s : ℚ)
    (t : List Char) : ℚ :=
  if jsIncludes content t then
    s + 10 + (if titleHas titleL t then 20 else 0)
  else s

/-- The recency bonus max(0, 5 - 0.1 * daysSinceUpdate) with
daysSinceUpdate = (now - updatedAt) / (1000*60*60*24)
(performance.js lines 252-255). -/
def recencyScore (updatedAt : Option ℚ) (now : ℚ) : ℚ :=
  match updatedAt with
  | some ts => max 0 (5 - ((now - ts) / (1000 * 60 * 60 * 24)) * (1 / 10))
  | none => 0

/-- The score the body of SearchIndex.search (performance.js lines 212-260)
computes for one document: exact-phrase bonus, per-token bonuses, twice the
fuzzy match count per token, 25 for full token coverage (the loop counter
tokenMatches equals tokens.length exactly when every token, counted with
multiplicity, is contained in the content), and the recency bonus. -/
def scoreDoc (tokens : List (List Char)) (queryLower : List Char) (now : ℚ)
    (doc : Document) : ℚ :=
  let content := doc.content.map Char.toLower
  let titleL : Option (List Char) := doc.metadata.title.map (List.map Char.toLower)
  phraseScore content titleL queryLower +
    tokens.foldl (tokenStep content titleL) 0 +
    tokens.foldl (fun s t => s + findFuzzyMatches content t * 2) 0 +
    (if (tokens.filter (fun t => jsIncludes content t)).length = tokens.length
      then 25 else 0) +
    recencyScore doc.metadata.updatedAt now

/-- The scores Map built by the document loop of SearchIndex.search
(performance.js lines 208-260): iterate the document store in insertion
order and record each strictly positive score. -/
def searchScores (docs : List (Id × Document)) (tokens : List (List Char))
    (queryLower : List Char) (now : ℚ) : List (Id × ℚ) :=
  docs.foldl (fun scores e =>
    if 0 < scoreDoc tokens queryLower now e.2 then
      jmSet scores e.1 (scoreDoc tokens queryLower now e.2)
    else scores) []

/-- Comparison used by scores sorting: the JS comparator (a, b) => b[1] - a[1]
orders by non-increasing score. -/
def byScoreDesc (a b : Id × ℚ) : Prop := b.2 ≤ a.2

instance : DecidableRel byScoreDesc := fun a b =>
  inferInstanceAs (Decidable (b.2 ≤ a.2))

instance : IsTotal (Id × ℚ) byScoreDesc := ⟨fun a b => le_total b.2 a.2⟩

instance : IsTrans (Id × ℚ) byScoreDesc := ⟨fun _ _ _ h1 h2 => le_trans h2 h1⟩

/-- The stable descending sort Array.prototype.sort performs with the
comparator (a, b) => b[1] - a[1] (sort is required to be stable since
ES2019); insertion sort with this comparison computes exactly that. -/
def sortDesc (l : List (Id × ℚ)) : List (Id × ℚ) :=
  List.insertionSort byScoreDesc l

/-- SearchIndex.search (performance.js lines 204-267): empty token list
short-circuits to []; otherwise score every stored document, keep the
strictly positive scores, sort by descending score, truncate to limit and
return the ids. -/
def search (st : SearchIndex) (now : ℚ) (query : List Char) (limit : Nat) :
    List Id :=
  let tokens := tokenize query
  if tokens.length = 0 then []
  else
    ((sortDesc (searchScores st.documents tokens (query.map Char.toLower) now)).take
        limit).map Prod.fst

/-- Spec section 8 concrete scenario: two documents, query alpha returns
exactly doc1, query apple returns exactly doc2. -/
example :
    search
      ⟨[], [("doc1".data, ⟨"Meeting notes about project Alpha".data,
              ⟨some "Alpha Kickoff".data, none⟩⟩),
            ("doc2".data, ⟨"Grocery list: apples, bread".data,
              ⟨some "Shopping".data, none⟩⟩)]⟩
      0 "alpha".data 50 = ["doc1".data] := by decide

example :
    search
      ⟨[], [("doc1".data, ⟨"Meeting notes about project Alpha".data,
              ⟨some "Alpha Kickoff".data, none⟩⟩),
            ("doc2".data, ⟨"Grocery list: apples, bread".data,
              ⟨some "Shopping".data, none⟩⟩)]⟩
      0 "apple".data 50 = ["doc2".data] := by decide

/-! ### Supporting lemmas about the text pipeline -/

theorem toLower_of_space {c : Char} (h : isSpaceChar c = true) :
    c.toLower = c := by
  simp only [isSpaceChar, Bool.or_eq_true, decide_eq_true_eq] at h
  rcases h with ((((h | h) | h) | h) | h) | h <;> subst h <;> decide

theorem punctToSpace_of_space {c : Char} (h : isSpaceChar c = true) :
    punctToSpace c = c := by
  simp [punctToSpace, h]

theorem normalizeText_all_space {s : List Char}
    (h : ∀ c ∈ s, isSpaceChar c = true) :
    ∀ c ∈ normalizeText s, isSpaceChar c = true := by
  intro c hc
  simp only [normalizeText, List.mem_map] at hc
  obtain ⟨b, ⟨a, ha, rfl⟩, rfl⟩ := hc
  rw [toLower_of_space (h a ha), punctToSpace_of_space (h a ha)]
  exact h a ha

theorem splitAtSpaces_all_space {s : List Char}
    (h : ∀ c ∈ s, isSpaceChar c = true) :
    ∀ f ∈ splitAtSpaces s, f = [] := by
  induction s with
  | nil => intro f hf; simpa [splitAtSpaces] using hf
  | cons c cs ih =>
    intro f hf
    have hc : isSpaceChar c = true := h c (by simp)
    simp only [splitAtSpaces, hc, if_true, List.mem_cons] at hf
    rcases hf with rfl | hf
    · rfl
    · exact ih (fun a ha => h a (by simp [ha])) f hf

theorem trimWS_all_space {s : List Char}
    (h : ∀ c ∈ s, isSpaceChar c = true) : trimWS s = [] := by
  have h1 : s.dropWhile isSpaceChar = [] := by
    rw [List.dropWhile_eq_nil_iff]
    exact h
  simp [trimWS, h1]

theorem tokenize_all_space {q : List Char}
    (hq : ∀ c ∈ q, isSpaceChar c = true) : tokenize q = [] := by
  unfold tokenize
  split
  · rfl
  · have hn : ∀ c ∈ normalizeText q, isSpaceChar c = true :=
      normalizeText_all_space hq
    have hfields : ∀ f ∈ splitAtSpaces (normalizeText q), f = [] :=
      splitAtSpaces_all_space hn
    have h1 : (splitAtSpaces (normalizeText q)).filter
        (fun t => t.length > 1) = [] := by
      rw [List.filter_eq_nil_iff]
      intro f hf
      rw [hfields f hf]
      decide
    rw [h1, trimWS_all_space hn]
    decide

/-! ### Claim C8 -/

/-- Claim C8 (confirmed): for every index state und every limit, search
returns the empty sequence whenever the query is empty or consists only of
whitespace characters; it does not return all documents in that case. -/
theorem C8_empty_or_whitespace_query (st : SearchIndex) (now : ℚ)
    (q : List Char) (limit : Nat) (hq : ∀ c ∈ q, isSpaceChar c = true) :
    search st now q limit = [] := by
  unfold search
  rw [tokenize_all_space hq]
  rfl

/-- Witness for C8 at the concrete whitespace-only query of one space and
one tab, on a non-empty store. -/
theorem C8_witness :
    search ⟨[], [("d".data, ⟨"hello".data, ⟨none, none⟩⟩)]⟩ 0
      [' ', '\t'] 50 = [] :=
  C8_empty_or_whitespace_query _ 0 [' ', '\t'] 50 (by decide)

/-! ### Claim C9 -/

/-- Claim C9 (confirmed): search reads only the document store, the query,
the limit and the clock; two states with the same documents map produce
identical results at the same time regardless of their inverted index
maps, so stale or corrupted postings cannot affect search results. -/
theorem C9_search_ignores_index (idx1 idx2 : List (List Char × List Id))
    (docs : List (Id × Document)) (now : ℚ) (q : List Char) (limit : Nat) :
    search ⟨idx1, docs⟩ now q limit = search ⟨idx2, docs⟩ now q limit := rfl

/-! ### Claim C4 -/

/-- Counterexample to C4 as stated: on the whitespace-only input of one
space the source tokenize returns the empty sequence, while the reference
pipeline of the claim appends the (empty) whole-text token. -/
theorem C4_counterexample : tokenize [' '] ≠ tokenizeSpec [' '] := by decide

/-- Claim C4 amended (proved): tokenize equals the reference pipeline
amended so that the appended whole-text token is kept only when it is
non-empty. -/
theorem C4_tokenize_pipeline (text : List Char) :
    tokenize text = tokenizeAmended text := by
  unfold tokenize tokenizeAmended
  split
  · rfl
  · rw [List.filter_append]
    congr 1
    · rw [List.filter_filter]
      refine List.filter_congr ?_
      intro t _
      cases t with
      | nil => decide
      | cons a l => simp [Nat.succ_le_iff]
    · by_cases hw : 0 < (trimWS (normalizeText text)).length
      · simp [List.filter, hw]
      · simp [List.filter, hw]

/-! ### Lemmas about the JS Map and Set models -/

/-- Keys of a JS Map model are duplicate-free; real JS Maps always satisfy
this, and every operation below preserves it. -/
abbrev keysNodup {β : Type} (m : List (Id × β)) : Prop :=
  (m.map Prod.fst).Nodup

theorem jmGet_jmSet_self {β : Type} (m : List (Id × β)) (k : Id) (v : β) :
    jmGet (jmSet m k v) k = some v := by
  induction m with
  | nil => simp [jmGet, jmSet]
  | cons e es ih =>
    by_cases h : e.1 = k
    · rw [jmSet, if_pos h, jmGet, if_pos rfl]
    · rw [jmSet, if_neg h, jmGet, if_neg h, ih]

theorem jmGet_jmSet_ne {β : Type} (m : List (Id × β)) (k k' : Id) (v : β)
    (h : k ≠ k') : jmGet (jmSet m k v) k' = jmGet m k' := by
  induction m with
  | nil => simp [jmGet, jmSet, h]
  | cons e es ih =>
    by_cases he : e.1 = k
    · rw [jmSet, if_pos he, jmGet, if_neg h, jmGet, if_neg (he ▸ h)]
    · rw [jmSet, if_neg he, jmGet, jmGet]
      by_cases he' : e.1 = k'
      · rw [if_pos he', if_pos he']
      · rw [if_neg he', if_neg he', ih]

theorem jmGet_jmDelete_ne {β : Type} (m : List (Id × β)) (k k' : Id)
    (h : k ≠ k') : jmGet (jmDelete m k) k' = jmGet m k' := by
  induction m with
  | nil => simp [jmGet, jmDelete]
  | cons e es ih =>
    by_cases he : e.1 = k
    · rw [jmDelete, if_pos he, jmGet, if_neg (he ▸ h)]
    · rw [jmDelete, if_neg he, jmGet, jmGet]
      by_cases he' : e.1 = k'
      · rw [if_pos he', if_pos he']
      · rw [if_neg he', if_neg he', ih]

theorem jmGet_eq_none_of_not_mem {β : Type} {m : List (Id × β)} {k : Id}
    (h : k ∉ m.map Prod.fst) : jmGet m k = none := by
  induction m with
  | nil => rfl
  | cons e es ih =>
    rw [List.map_cons, List.mem_cons] at h
    push_neg at h
    rw [jmGet, if_neg (Ne.symm h.1), ih h.2]

theorem mem_keys_of_jmGet {β : Type} {m : List (Id × β)} {k : Id}
    {v : β} (h : jmGet m k = some v) : k ∈ m.map Prod.fst := by
  induction m with
  | nil => simp [jmGet] at h
  | cons e es ih =>
    by_cases he : e.1 = k
    · rw [List.map_cons, he]
      exact List.mem_cons_self _ _
    · rw [jmGet, if_neg he] at h
      exact List.mem_cons_of_mem _ (ih h)

theorem mem_of_jmGet {β : Type} {m : List (Id × β)} {k : Id} {v : β}
    (h : jmGet m k = some v) : (k, v) ∈ m := by
  induction m with
  | nil => simp [jmGet] at h
  | cons e es ih =>
    obtain ⟨e1, e2⟩ := e
    by_cases he : e1 = k
    · rw [jmGet, if_pos he] at h
      injection h with h2
      subst he
      subst h2
      exact List.mem_cons_self _ _
    · rw [jmGet, if_neg he] at h
      exact List.mem_cons_of_mem _ (ih h)

theorem jmGet_of_mem_nodup {β : Type} {m : List (Id × β)} {k : Id} {v : β}
    (hnd : keysNodup m) (hm : (k, v) ∈ m) : jmGet m k = some v := by
  induction m with
  | nil => simp at hm
  | cons e es ih =>
    replace hnd : (e.1 :: es.map Prod.fst).Nodup := hnd
    rw [List.nodup_cons] at hnd
    rcases List.mem_cons.mp hm with rfl | hm'
    · rw [jmGet, if_pos rfl]
    · have hk : e.1 ≠ k := by
        intro he
        exact hnd.1 (he ▸ List.mem_map.mpr ⟨(k, v), hm', rfl⟩)
      rw [jmGet, if_neg hk]
      exact ih hnd.2 hm'

theorem jmSet_of_not_mem {β : Type} {m : List (Id × β)} {k : Id} (v : β)
    (h : k ∉ m.map Prod.fst) : jmSet m k v = m ++ [(k, v)] := by
  induction m with
  | nil => rfl
  | cons e es ih =>
    rw [List.map_cons, List.mem_cons] at h
    push_neg at h
    rw [jmSet, if_neg (Ne.symm h.1), ih h.2, List.cons_append]

theorem keys_jmSet {β : Type} (m : List (Id × β)) (k : Id) (v : β) :
    (jmSet m k v).map Prod.fst =
      if k ∈ m.map Prod.fst then m.map Prod.fst
      else m.map Prod.fst ++ [k] := by
  induction m with
  | nil => simp [jmSet]
  | cons e es ih =>
    by_cases he : e.1 = k
    · rw [jmSet, if_pos he, List.map_cons, List.map_cons,
        if_pos (by rw [he]; exact List.mem_cons_self _ _)]
      rw [he]
    · rw [jmSet, if_neg he, List.map_cons, List.map_cons, ih]
      by_cases hk : k ∈ es.map Prod.fst
      · rw [if_pos hk, if_pos (List.mem_cons_of_mem _ hk)]
      · rw [if_neg hk, if_neg ?_, List.cons_append]
        intro hmem
        rcases List.mem_cons.mp hmem with h1 | h1
        · exact he h1.symm
        · exact hk h1

theorem mem_keys_jmSet {β : Type} {m : List (Id × β)} {k k' : Id} {v : β} :
    k' ∈ (jmSet m k v).map Prod.fst ↔ k' ∈ m.map Prod.fst ∨ k' = k := by
  rw [keys_jmSet]
  by_cases hk : k ∈ m.map Prod.fst
  · rw [if_pos hk]
    constructor
    · exact Or.inl
    · rintro (h | rfl)
      · exact h
      · exact hk
  · rw [if_neg hk, List.mem_append, List.mem_singleton]

theorem keysNodup_jmSet {β : Type} {m : List (Id × β)} {k : Id} {v : β}
    (h : keysNodup m) : keysNodup (jmSet m k v) := by
  rw [keysNodup, keys_jmSet]
  by_cases hk : k ∈ m.map Prod.fst
  · rw [if_pos hk]; exact h
  · rw [if_neg hk]
    refine List.Nodup.append h (List.nodup_singleton _) ?_
    intro a ha hb
    rw [List.mem_singleton] at hb
    exact hk (hb ▸ ha)

theorem keys_jmDelete_sublist {β : Type} (m : List (Id × β)) (k : Id) :
    ((jmDelete m k).map Prod.fst).Sublist (m.map Prod.fst) := by
  induction m with
  | nil => simp [jmDelete]
  | cons e es ih =>
    by_cases he : e.1 = k
    · rw [jmDelete, if_pos he, List.map_cons]
      exact List.sublist_cons_self _ _
    · rw [jmDelete, if_neg he, List.map_cons, List.map_cons]
      exact ih.cons₂ _

theorem keysNodup_jmDelete {β : Type} {m : List (Id × β)} (k : Id)
    (h : keysNodup m) : keysNodup (jmDelete m k) :=
  List.Nodup.sublist (keys_jmDelete_sublist m k) h

theorem not_mem_keys_jmDelete {β : Type} {m : List (Id × β)} {k : Id}
    (h : keysNodup m) : k ∉ (jmDelete m k).map Prod.fst := by
  induction m with
  | nil => simp [jmDelete]
  | cons e es ih =>
    replace h : (e.1 :: es.map Prod.fst).Nodup := h
    rw [List.nodup_cons] at h
    by_cases he : e.1 = k
    · rw [jmDelete, if_pos he]
      exact he ▸ h.1
    · rw [jmDelete, if_neg he, List.map_cons]
      intro hmem
      rcases List.mem_cons.mp hmem with h1 | h1
      · exact he h1.symm
      · exact ih h.2 h1

theorem jmGet_jmDelete_self {β : Type} {m : List (Id × β)} {k : Id}
    (h : keysNodup m) : jmGet (jmDelete m k) k = none :=
  jmGet_eq_none_of_not_mem (not_mem_keys_jmDelete h)

theorem jmDelete_jmSet_of_not_mem {β : Type} {m : List (Id × β)} {k : Id}
    (v : β) (h : k ∉ m.map Prod.fst) : jmDelete (jmSet m k v) k = m := by
  induction m with
  | nil => simp [jmSet, jmDelete]
  | cons e es ih =>
    rw [List.map_cons, List.mem_cons] at h
    push_neg at h
    rw [jmSet, if_neg (Ne.symm h.1), jmDelete, if_neg (Ne.symm h.1), ih h.2]

/-! ### Characterization of the scores map built by search -/

/-- The scores list written without the Map indirection: since document
keys are duplicate-free, the scores Map that search builds is just the
filtered, scored document list in store order. -/
def scoresSimple (docs : List (Id × Document)) (tokens : List (List Char))
    (queryLower : List Char) (now : ℚ) : List (Id × ℚ) :=
  (docs.filter (fun e => 0 < scoreDoc tokens queryLower now e.2)).map
    (fun e => (e.1, scoreDoc tokens queryLower now e.2))

theorem scoresSimple_cons (e : Id × Document) (es : List (Id × Document))
    (tokens : List (List Char)) (queryLower : List Char) (now : ℚ) :
    scoresSimple (e :: es) tokens queryLower now =
      (if 0 < scoreDoc tokens queryLower now e.2 then
        [(e.1, scoreDoc tokens queryLower now e.2)] else []) ++
      scoresSimple es tokens queryLower now := by
  by_cases hs : 0 < scoreDoc tokens queryLower now e.2
  · simp [scoresSimple, List.filter_cons, hs]
  · simp [scoresSimple, List.filter_cons, hs]

theorem searchScores_fold (tokens : List (List Char)) (queryLower : List Char)
    (now : ℚ) :
    ∀ (docs : List (Id × Document)) (acc : List (Id × ℚ)),
      keysNodup docs →
      (∀ e ∈ docs, e.1 ∉ acc.map Prod.fst) →
      docs.foldl (fun scores e =>
        if 0 < scoreDoc tokens queryLower now e.2 then
          jmSet scores e.1 (scoreDoc tokens queryLower now e.2)
        else scores) acc =
      acc ++ scoresSimple docs tokens queryLower now := by
  intro docs
  induction docs with
  | nil => intro acc _ _; simp [scoresSimple]
  | cons e es ih =>
    intro acc hnd hacc
    replace hnd : (e.1 :: es.map Prod.fst).Nodup := hnd
    rw [List.nodup_cons] at hnd
    rw [List.foldl_cons]
    by_cases hs : 0 < scoreDoc tokens queryLower now e.2
    · rw [if_pos hs,
        jmSet_of_not_mem _ (hacc e (List.mem_cons_self _ _)),
        ih _ hnd.2 ?_, scoresSimple_cons, if_pos hs, List.append_assoc]
      intro e' he'
      rw [List.map_append, List.mem_append]
      rintro (h1 | h1)
      · exact hacc e' (List.mem_cons_of_mem _ he') h1
      · rw [List.map_singleton, List.mem_singleton] at h1
        exact hnd.1 (h1 ▸ List.mem_map.mpr ⟨e', he', rfl⟩)
    · rw [if_neg hs, ih _ hnd.2
        (fun e' he' => hacc e' (List.mem_cons_of_mem _ he')),
        scoresSimple_cons, if_neg hs]
      rfl

theorem searchScores_eq (docs : List (Id × Document))
    (tokens : List (List Char)) (queryLower : List Char) (now : ℚ)
    (hnd : keysNodup docs) :
    searchScores docs tokens queryLower now =
      scoresSimple docs tokens queryLower now := by
  rw [searchScores, searchScores_fold tokens queryLower now docs [] hnd
    (by intro e _ h; simp at h)]
  rfl

theorem mem_scoresSimple {docs : List (Id × Document)}
    {tokens : List (List Char)} {queryLower : List Char} {now : ℚ}
    {p : Id × ℚ} (hnd : keysNodup docs)
    (hp : p ∈ scoresSimple docs tokens queryLower now) :
    ∃ d, jmGet docs p.1 = some d ∧
      p.2 = scoreDoc tokens queryLower now d ∧ 0 < p.2 := by
  rw [scoresSimple, List.mem_map] at hp
  obtain ⟨e, he, rfl⟩ := hp
  rw [List.mem_filter] at he
  exact ⟨e.2, jmGet_of_mem_nodup hnd he.1, rfl, by simpa using he.2⟩

theorem scoresSimple_keys_sublist (docs : List (Id × Document))
    (tokens : List (List Char)) (queryLower : List Char) (now : ℚ) :
    ((scoresSimple docs tokens queryLower now).map Prod.fst).Sublist
      (docs.map Prod.fst) := by
  rw [scoresSimple, List.map_map]
  have : (Prod.fst ∘ fun e : Id × Document =>
      (e.1, scoreDoc tokens queryLower now e.2)) = Prod.fst := rfl
  rw [this]
  exact (List.filter_sublist _).map _

/-! ### Claim C2 -/

/-- Claim C2 (confirmed, under the invariant that the document store holds
no duplicate ids, which every reachable state satisfies): search returns at
most limit ids, each carrying a strictly positive computed score, in
non-increasing score order. -/
theorem C2_search_sorted_limited (st : SearchIndex) (now : ℚ)
    (q : List Char) (limit : Nat) (hnd : keysNodup st.documents) :
    (search st now q limit).length ≤ limit ∧
    ∃ scored : List (Id × ℚ),
      search st now q limit = scored.map Prod.fst ∧
      scored.Sorted byScoreDesc ∧
      ∀ p ∈ scored, ∃ d, jmGet st.documents p.1 = some d ∧
        p.2 = scoreDoc (tokenize q) (q.map Char.toLower) now d ∧ 0 < p.2 := by
  unfold search
  by_cases htok : (tokenize q).length = 0
  · rw [if_pos htok]
    exact ⟨by simp, [], rfl, List.sorted_nil, by simp⟩
  · rw [if_neg htok]
    refine ⟨?_, (sortDesc (searchScores st.documents (tokenize q)
      (q.map Char.toLower) now)).take limit, rfl, ?_, ?_⟩
    · rw [List.length_map]
      exact (List.length_take_le _ _)
    · exact (List.sorted_insertionSort byScoreDesc _).sublist
        (List.take_sublist _ _)
    · intro p hp
      have hp2 : p ∈ sortDesc (searchScores st.documents (tokenize q)
          (q.map Char.toLower) now) := List.mem_of_mem_take hp
      rw [sortDesc, List.mem_insertionSort] at hp2
      rw [searchScores_eq _ _ _ _ hnd] at hp2
      exact mem_scoresSimple hnd hp2

/-! ### Score lower bounds -/

theorem foldl_mono_nonneg {α : Type} (f : ℚ → α → ℚ)
    (hf : ∀ acc x, acc ≤ f acc x) :
    ∀ (l : List α) (init : ℚ), init ≤ l.foldl f init := by
  intro l
  induction l with
  | nil => intro init; simp
  | cons x xs ih =>
    intro init
    rw [List.foldl_cons]
    exact le_trans (hf init x) (ih (f init x))

theorem findFuzzyMatches_nonneg (content token : List Char) :
    0 ≤ findFuzzyMatches content token := by
  rw [findFuzzyMatches]
  refine foldl_mono_nonneg _ ?_ _ 0
  intro acc word
  split
  · split
    · linarith
    · split
      · next hsim => linarith
      · exact le_rfl
  · exact le_rfl

theorem tokenStep_mono (content : List Char) (titleL : Option (List Char))
    (s : ℚ) (t : List Char) : s ≤ tokenStep content titleL s t := by
  rw [tokenStep]
  split
  · split
    · linarith
    · linarith
  · exact le_rfl

theorem recencyScore_nonneg (updatedAt : Option ℚ) (now : ℚ) :
    0 ≤ recencyScore updatedAt now := by
  match updatedAt with
  | some ts => exact le_max_left 0 _
  | none => exact le_rfl

/-- Any document whose lowercased content contains the lowercased query as
a substring scores at least the exact-phrase bonus of 100. -/
theorem scoreDoc_ge_100_of_phrase (tokens : List (List Char))
    (queryLower : List Char) (now : ℚ) (doc : Document)
    (h : jsIncludes (doc.content.map Char.toLower) queryLower = true) :
    100 ≤ scoreDoc tokens queryLower now doc := by
  rw [scoreDoc]
  have hphrase : (100 : ℚ) ≤ phraseScore (doc.content.map Char.toLower)
      (doc.metadata.title.map (List.map Char.toLower)) queryLower := by
    rw [phraseScore, if_pos h]
    split
    · linarith
    · linarith
  have htoks := foldl_mono_nonneg _
    (tokenStep_mono (doc.content.map Char.toLower)
      (doc.metadata.title.map (List.map Char.toLower))) tokens 0
  have hfuzzy := foldl_mono_nonneg
    (fun s t => s + findFuzzyMatches (doc.content.map Char.toLower) t * 2)
    (fun acc t => by
      have := findFuzzyMatches_nonneg (doc.content.map Char.toLower) t
      simp only []
      linarith) tokens 0
  have hcov : (0 : ℚ) ≤
      (if (tokens.filter (fun t =>
          jsIncludes (doc.content.map Char.toLower) t)).length = tokens.length
      then (25 : ℚ) else 0) := by
    split
    · linarith
    · exact le_rfl
  have hrec := recencyScore_nonneg doc.metadata.updatedAt now
  linarith

/-! ### Claim C10 -/

/-- Claim C10 (confirmed): the single-character query a produces exactly
one token, the whole-text token a, so search does not take the empty
token-list path; every stored document whose lowercased content contains
the character a scores strictly positively and appears among the ranked
candidates search truncates from. -/
theorem C10_single_char_query (st : SearchIndex) (now : ℚ) (id : Id)
    (d : Document) (limit : Nat) (hnd : keysNodup st.documents)
    (hget : jmGet st.documents id = some d)
    (hc : jsIncludes (d.content.map Char.toLower) ['a'] = true) :
    tokenize ['a'] = [['a']] ∧
    search st now ['a'] limit =
      ((sortDesc (searchScores st.documents (tokenize ['a'])
        (['a'].map Char.toLower) now)).take limit).map Prod.fst ∧
    0 < scoreDoc (tokenize ['a']) (['a'].map Char.toLower) now d ∧
    id ∈ (sortDesc (searchScores st.documents (tokenize ['a'])
      (['a'].map Char.toLower) now)).map Prod.fst := by
  have htok : tokenize ['a'] = [['a']] := by decide
  have hscore : 0 < scoreDoc (tokenize ['a']) (['a'].map Char.toLower) now d := by
    have h100 := scoreDoc_ge_100_of_phrase (tokenize ['a'])
      (['a'].map Char.toLower) now d (by simpa using hc)
    linarith
  refine ⟨htok, ?_, hscore, ?_⟩
  · rw [search]
    rw [if_neg (by rw [htok]; simp)]
  · have hmem : (id, scoreDoc (tokenize ['a']) (['a'].map Char.toLower) now d) ∈
        searchScores st.documents (tokenize ['a']) (['a'].map Char.toLower) now := by
      rw [searchScores_eq _ _ _ _ hnd, scoresSimple]
      exact List.mem_map.mpr ⟨(id, d),
        List.mem_filter.mpr ⟨mem_of_jmGet hget, by simpa using hscore⟩, rfl⟩
    exact List.mem_map.mpr ⟨(id, _),
      (List.mem_insertionSort byScoreDesc).mpr hmem, rfl⟩

/-- Witness for C10 on a one-document store whose content contains a. -/
theorem C10_witness :
    tokenize ['a'] = [['a']] ∧
    search ⟨[], [("d1".data, ⟨"cat".data, ⟨none, none⟩⟩)]⟩ 0 ['a'] 50 =
      ((sortDesc (searchScores [("d1".data, ⟨"cat".data, ⟨none, none⟩⟩)]
        (tokenize ['a']) (['a'].map Char.toLower) 0)).take 50).map Prod.fst ∧
    0 < scoreDoc (tokenize ['a']) (['a'].map Char.toLower) 0
      ⟨"cat".data, ⟨none, none⟩⟩ ∧
    "d1".data ∈ (sortDesc (searchScores [("d1".data, ⟨"cat".data, ⟨none, none⟩⟩)]
      (tokenize ['a']) (['a'].map Char.toLower) 0)).map Prod.fst :=
  C10_single_char_query ⟨[], [("d1".data, ⟨"cat".data, ⟨none, none⟩⟩)]⟩ 0
    "d1".data ⟨"cat".data, ⟨none, none⟩⟩ 50 (by decide) (by decide) (by decide)

/-- Witness for C2 on a concrete two-document store. -/
theorem C2_witness :
    (search ⟨[], [("a".data, ⟨"red fox".data, ⟨none, none⟩⟩),
        ("b".data, ⟨"red dog".data, ⟨none, none⟩⟩)]⟩ 0 "red".data 1).length ≤ 1 ∧
    ∃ scored : List (Id × ℚ),
      search ⟨[], [("a".data, ⟨"red fox".data, ⟨none, none⟩⟩),
        ("b".data, ⟨"red dog".data, ⟨none, none⟩⟩)]⟩ 0 "red".data 1 =
          scored.map Prod.fst ∧
      scored.Sorted byScoreDesc ∧
      ∀ p ∈ scored, ∃ d,
        jmGet [("a".data, ⟨"red fox".data, ⟨none, none⟩⟩),
          ("b".data, ⟨"red dog".data, ⟨none, none⟩⟩)] p.1 = some d ∧
        p.2 = scoreDoc (tokenize "red".data) ("red".data.map Char.toLower) 0 d ∧
        0 < p.2 :=
  C2_search_sorted_limited _ 0 "red".data 1 (by decide)


/-! ### Claim C3 -/

theorem jmGet_eq_none_iff {β : Type} {m : List (Id × β)} {k : Id} :
    jmGet m k = none ↔ k ∉ m.map Prod.fst := by
  constructor
  · intro h hmem
    induction m with
    | nil => simp at hmem
    | cons e es ih =>
      rw [List.map_cons, List.mem_cons] at hmem
      rcases hmem with rfl | hmem
      · rw [jmGet, if_pos rfl] at h
        exact Option.noConfusion h
      · by_cases he : e.1 = k
        · rw [jmGet, if_pos he] at h
          exact Option.noConfusion h
        · rw [jmGet, if_neg he] at h
          exact ih h hmem
  · exact jmGet_eq_none_of_not_mem

/-- Every id a search returns is a key of the document store: the scores
map is populated only from entries of the store. -/
theorem mem_docKeys_of_mem_search {st : SearchIndex} {now : ℚ}
    {q : List Char} {limit : Nat} {id : Id}
    (h : id ∈ search st now q limit) : id ∈ st.documents.map Prod.fst := by
  have foldKeys : ∀ (docs : List (Id × Document)) (acc : List (Id × ℚ)) (x : Id),
      x ∈ (docs.foldl (fun scores e =>
        if 0 < scoreDoc (tokenize q) (q.map Char.toLower) now e.2 then
          jmSet scores e.1 (scoreDoc (tokenize q) (q.map Char.toLower) now e.2)
        else scores) acc).map Prod.fst →
      x ∈ acc.map Prod.fst ∨ x ∈ docs.map Prod.fst := by
    intro docs
    induction docs with
    | nil => intro acc x hx; exact Or.inl hx
    | cons e es ih =>
      intro acc x hx
      rw [List.foldl_cons] at hx
      rcases ih _ x hx with hx' | hx'
      · by_cases hs : 0 < scoreDoc (tokenize q) (q.map Char.toLower) now e.2
        · rw [if_pos hs] at hx'
          rcases mem_keys_jmSet.mp hx' with h1 | rfl
          · exact Or.inl h1
          · exact Or.inr (by rw [List.map_cons]; exact List.mem_cons_self _ _)
        · rw [if_neg hs] at hx'
          exact Or.inl hx'
      · exact Or.inr (List.mem_cons_of_mem _ hx')
  rw [search] at h
  by_cases htok : (tokenize q).length = 0
  · rw [if_pos htok] at h
    simp at h
  · rw [if_neg htok] at h
    obtain ⟨p, hp, rfl⟩ := List.mem_map.mp h
    have hp2 : p ∈ sortDesc (searchScores st.documents (tokenize q)
        (q.map Char.toLower) now) := List.mem_of_mem_take hp
    rw [sortDesc, List.mem_insertionSort] at hp2
    have : p.1 ∈ (searchScores st.documents (tokenize q)
        (q.map Char.toLower) now).map Prod.fst :=
      List.mem_map.mpr ⟨p, hp2, rfl⟩
    rcases foldKeys st.documents [] p.1 this with h1 | h1
    · simp at h1
    · exact h1

theorem keysNodup_documents_addDocument {st : SearchIndex} {id : Id}
    {c : List Char} {m : Metadata} (h : keysNodup st.documents) :
    keysNodup (addDocument st id c m).documents :=
  keysNodup_jmSet h

theorem keysNodup_documents_removeDocument {st : SearchIndex} {id : Id}
    (h : keysNodup st.documents) :
    keysNodup (removeDocument st id).documents := by
  rw [removeDocument]
  match jmGet st.documents id with
  | none => exact h
  | some doc => exact keysNodup_jmDelete _ h

/-- One SearchIndex operation that never adds the given id: addDocument
with a different id, removeDocument of any id, or clear. -/
inductive OpStep (id : Id) : SearchIndex → SearchIndex → Prop
  | add (st : SearchIndex) (idA : Id) (c : List Char) (m : Metadata) :
      idA ≠ id → OpStep id st (addDocument st idA c m)
  | remove (st : SearchIndex) (idR : Id) :
      OpStep id st (removeDocument st idR)
  | wipe (st : SearchIndex) : OpStep id st (clearIndex st)

theorem opStep_preserves {id : Id} {s1 s2 : SearchIndex}
    (hstep : OpStep id s1 s2)
    (h : id ∉ s1.documents.map Prod.fst ∧ keysNodup s1.documents) :
    id ∉ s2.documents.map Prod.fst ∧ keysNodup s2.documents := by
  cases hstep with
  | add idA c m hne =>
    refine ⟨?_, keysNodup_documents_addDocument h.2⟩
    intro hmem
    rcases mem_keys_jmSet.mp hmem with h1 | rfl
    · exact h.1 h1
    · exact hne rfl
  | remove idR =>
    refine ⟨?_, keysNodup_documents_removeDocument h.2⟩
    rw [removeDocument]
    match jmGet s1.documents idR with
    | none => exact h.1
    | some doc =>
      intro hmem
      exact h.1 (List.Sublist.mem hmem (keys_jmDelete_sublist _ _))
  | wipe => exact ⟨List.not_mem_nil _, List.nodup_nil⟩

/-- Claim C3 (confirmed, under the invariant that the document store holds
no duplicate ids): after removeDocument(id), and through any further
sequence of operations that does not addDocument that id again, search
never returns id, for every query, limit and clock value. -/
theorem C3_removed_never_returned (st st2 : SearchIndex) (id : Id)
    (hnd : keysNodup st.documents)
    (hsteps : Relation.ReflTransGen (OpStep id) (removeDocument st id) st2)
    (now : ℚ) (q : List Char) (limit : Nat) :
    id ∉ search st2 now q limit := by
  have base : id ∉ (removeDocument st id).documents.map Prod.fst ∧
      keysNodup (removeDocument st id).documents := by
    refine ⟨?_, keysNodup_documents_removeDocument hnd⟩
    rw [removeDocument]
    match h : jmGet st.documents id with
    | none => exact jmGet_eq_none_iff.mp h
    | some doc => exact not_mem_keys_jmDelete hnd
  have inv : id ∉ st2.documents.map Prod.fst ∧ keysNodup st2.documents := by
    induction hsteps with
    | refl => exact base
    | tail _ hstep ih => exact opStep_preserves hstep ih
  intro hmem
  exact inv.1 (mem_docKeys_of_mem_search hmem)

/-- Witness for C3: remove the only document and search for its own
content. -/
theorem C3_witness :
    "d".data ∉ search
      (removeDocument (addDocument ⟨[], []⟩ "d".data "hi there".data
        ⟨none, none⟩) "d".data) 0 "hi".data 50 :=
  C3_removed_never_returned
    (addDocument ⟨[], []⟩ "d".data "hi there".data ⟨none, none⟩)
    (removeDocument (addDocument ⟨[], []⟩ "d".data "hi there".data
      ⟨none, none⟩) "d".data)
    "d".data (by decide) Relation.ReflTransGen.refl 0 "hi".data 50


/-! ### Claim C6: the add-then-remove round trip -/

/-- The body of the token loop of addDocument as a named step function. -/
def addTok (id : Id) (idx : List (List Char × List Id)) (token : List Char) :
    List (List Char × List Id) :=
  match jmGet idx token with
  | none => jmSet idx token [id]
  | some s => jmSet idx token (jsAdd s id)

/-- The body of the token loop of removeDocument as a named step function. -/
def removeTok (id : Id) (idx : List (List Char × List Id))
    (token : List Char) : List (List Char × List Id) :=
  match jmGet idx token with
  | none => idx
  | some s =>
    if (jsDelete s id).length = 0 then jmDelete idx token
    else jmSet idx token (jsDelete s id)

theorem addTok_none {idx : List (List Char × List Id)} {token : List Char}
    (id : Id) (h : jmGet idx token = none) :
    addTok id idx token = jmSet idx token [id] := by
  unfold addTok
  rw [h]

theorem addTok_some {idx : List (List Char × List Id)} {token : List Char}
    {s : List Id} (id : Id) (h : jmGet idx token = some s) :
    addTok id idx token = jmSet idx token (jsAdd s id) := by
  unfold addTok
  rw [h]

theorem removeTok_none {idx : List (List Char × List Id)} {token : List Char}
    (id : Id) (h : jmGet idx token = none) : removeTok id idx token = idx := by
  unfold removeTok
  rw [h]

theorem removeTok_some {idx : List (List Char × List Id)} {token : List Char}
    {s : List Id} (id : Id) (h : jmGet idx token = some s) :
    removeTok id idx token =
      if (jsDelete s id).length = 0 then jmDelete idx token
      else jmSet idx token (jsDelete s id) := by
  unfold removeTok
  rw [h]

theorem addDocument_index (st : SearchIndex) (id : Id) (c : List Char)
    (m : Metadata) :
    (addDocument st id c m).index = (tokenize c).foldl (addTok id) st.index :=
  rfl

theorem removeDocument_of_get {st : SearchIndex} {id : Id} {doc : Document}
    (h : jmGet st.documents id = some doc) :
    removeDocument st id =
      ⟨(tokenize doc.content).foldl (removeTok id) st.index,
        jmDelete st.documents id⟩ := by
  unfold removeDocument
  rw [h]
  rfl

/-- What a token entry looks like after removeDocument has processed it:
entries that become empty are deleted, others are retained as they were
before the paired addDocument. -/
def cleanGet (idx0 : List (List Char × List Id)) (t : List Char) :
    Option (List Id) :=
  match jmGet idx0 t with
  | none => none
  | some s => if s.length = 0 then none else some s

theorem cleanGet_none {idx0 : List (List Char × List Id)} {t : List Char}
    (h : jmGet idx0 t = none) : cleanGet idx0 t = none := by
  unfold cleanGet
  rw [h]

theorem cleanGet_some {idx0 : List (List Char × List Id)} {t : List Char}
    {s : List Id} (h : jmGet idx0 t = some s) :
    cleanGet idx0 t = if s.length = 0 then none else some s := by
  unfold cleanGet
  rw [h]

theorem cleanGet_getD (idx0 : List (List Char × List Id)) (t : List Char) :
    (cleanGet idx0 t).getD [] = (jmGet idx0 t).getD [] := by
  cases h : jmGet idx0 t with
  | none => rw [cleanGet_none h]
  | some s =>
    rw [cleanGet_some h]
    by_cases hs : s.length = 0
    · rw [if_pos hs, List.length_eq_zero.mp hs]
      rfl
    · rw [if_neg hs]

theorem foldAdd_char (id : Id) (idx0 : List (List Char × List Id))
    (hfresh : ∀ t, id ∉ (jmGet idx0 t).getD []) :
    ∀ (toks done : List (List Char)) (idx : List (List Char × List Id)),
      keysNodup idx →
      (∀ t, jmGet idx t = if t ∈ done then
          some ((jmGet idx0 t).getD [] ++ [id]) else jmGet idx0 t) →
      keysNodup (toks.foldl (addTok id) idx) ∧
      ∀ t, jmGet (toks.foldl (addTok id) idx) t =
        if t ∈ done ++ toks then some ((jmGet idx0 t).getD [] ++ [id])
        else jmGet idx0 t := by
  intro toks
  induction toks with
  | nil =>
    intro done idx hnd hchar
    rw [List.foldl_nil]
    exact ⟨hnd, by simpa using hchar⟩
  | cons t0 ts ih =>
    intro done idx hnd hchar
    rw [List.foldl_cons]
    have hstepnd : keysNodup (addTok id idx t0) := by
      cases hg : jmGet idx t0 with
      | none => rw [addTok_none id hg]; exact keysNodup_jmSet hnd
      | some s => rw [addTok_some id hg]; exact keysNodup_jmSet hnd
    have hstepchar : ∀ t, jmGet (addTok id idx t0) t =
        if t ∈ done ++ [t0] then some ((jmGet idx0 t).getD [] ++ [id])
        else jmGet idx0 t := by
      intro t
      by_cases ht : t = t0
      · subst ht
        rw [if_pos (List.mem_append_right _ (List.mem_singleton.mpr rfl))]
        by_cases hd : t ∈ done
        · have hcur : jmGet idx t = some ((jmGet idx0 t).getD [] ++ [id]) := by
            rw [hchar t, if_pos hd]
          rw [addTok_some id hcur, jsAdd,
            if_pos (List.mem_append_right _ (List.mem_singleton.mpr rfl)),
            jmGet_jmSet_self]
        · have hcur : jmGet idx t = jmGet idx0 t := by
            rw [hchar t, if_neg hd]
          cases hbase : jmGet idx0 t with
          | none =>
            rw [hbase] at hcur
            rw [addTok_none id hcur, jmGet_jmSet_self]
            rfl
          | some s =>
            have hid : id ∉ s := by
              have h2 := hfresh t
              rw [hbase] at h2
              exact h2
            rw [hbase] at hcur
            rw [addTok_some id hcur, jsAdd, if_neg hid, jmGet_jmSet_self]
            rfl
      · have hget : jmGet (addTok id idx t0) t = jmGet idx t := by
          cases hg : jmGet idx t0 with
          | none =>
            rw [addTok_none id hg]
            exact jmGet_jmSet_ne _ _ _ _ (fun h => ht h.symm)
          | some s =>
            rw [addTok_some id hg]
            exact jmGet_jmSet_ne _ _ _ _ (fun h => ht h.symm)
        have hnmem : t ∈ done ++ [t0] ↔ t ∈ done := by
          rw [List.mem_append, List.mem_singleton]
          constructor
          · rintro (h1 | h1)
            · exact h1
            · exact absurd h1 ht
          · exact Or.inl
        rw [hget, hchar t]
        by_cases hd : t ∈ done
        · rw [if_pos hd, if_pos (hnmem.mpr hd)]
        · rw [if_neg hd, if_neg (fun h2 => hd (hnmem.mp h2))]
    have hrec := ih (done ++ [t0]) (addTok id idx t0) hstepnd hstepchar
    rw [List.append_assoc, List.singleton_append] at hrec
    exact hrec

theorem foldRemove_char (id : Id) (idx0 : List (List Char × List Id))
    (hfresh : ∀ t, id ∉ (jmGet idx0 t).getD []) (toksAll : List (List Char)) :
    ∀ (toks done : List (List Char)) (idx : List (List Char × List Id)),
      (∀ t ∈ toks, t ∈ toksAll) →
      keysNodup idx →
      (∀ t, jmGet idx t =
        if t ∈ done then cleanGet idx0 t
        else if t ∈ toksAll then some ((jmGet idx0 t).getD [] ++ [id])
        else jmGet idx0 t) →
      keysNodup (toks.foldl (removeTok id) idx) ∧
      ∀ t, jmGet (toks.foldl (removeTok id) idx) t =
        if t ∈ done ++ toks then cleanGet idx0 t
        else if t ∈ toksAll then some ((jmGet idx0 t).getD [] ++ [id])
        else jmGet idx0 t := by
  intro toks
  induction toks with
  | nil =>
    intro done idx _ hnd hchar
    rw [List.foldl_nil]
    exact ⟨hnd, by simpa using hchar⟩
  | cons t0 ts ih =>
    intro done idx hsub hnd hchar
    rw [List.foldl_cons]
    have ht0 : t0 ∈ toksAll := hsub t0 (List.mem_cons_self _ _)
    have hstepnd : keysNodup (removeTok id idx t0) := by
      cases hg : jmGet idx t0 with
      | none => rw [removeTok_none id hg]; exact hnd
      | some s =>
        rw [removeTok_some id hg]
        by_cases hlen : (jsDelete s id).length = 0
        · rw [if_pos hlen]
          exact keysNodup_jmDelete _ hnd
        · rw [if_neg hlen]
          exact keysNodup_jmSet hnd
    have hstepchar : ∀ t, jmGet (removeTok id idx t0) t =
        if t ∈ done ++ [t0] then cleanGet idx0 t
        else if t ∈ toksAll then some ((jmGet idx0 t).getD [] ++ [id])
        else jmGet idx0 t := by
      intro t
      by_cases ht : t = t0
      · subst ht
        rw [if_pos (List.mem_append_right _ (List.mem_singleton.mpr rfl))]
        by_cases hd : t ∈ done
        · have hcur : jmGet idx t = cleanGet idx0 t := by
            rw [hchar t, if_pos hd]
          cases hbase : jmGet idx0 t with
          | none =>
            rw [cleanGet_none hbase] at hcur
            rw [removeTok_none id hcur, hcur, cleanGet_none hbase]
          | some s =>
            have hid : id ∉ s := by
              have h2 := hfresh t
              rw [hbase] at h2
              exact h2
            rw [cleanGet_some hbase] at hcur
            by_cases hs : s.length = 0
            · rw [if_pos hs] at hcur
              rw [removeTok_none id hcur, hcur, cleanGet_some hbase,
                if_pos hs]
            · rw [if_neg hs] at hcur
              rw [removeTok_some id hcur, jsDelete,
                List.erase_of_not_mem hid, if_neg hs, jmGet_jmSet_self,
                cleanGet_some hbase, if_neg hs]
        · have hcur : jmGet idx t =
              some ((jmGet idx0 t).getD [] ++ [id]) := by
            rw [hchar t, if_neg hd, if_pos ht0]
          have hiderase : jsDelete ((jmGet idx0 t).getD [] ++ [id]) id =
              (jmGet idx0 t).getD [] := by
            rw [jsDelete, List.erase_append_right _ (hfresh t),
              List.erase_cons_head, List.append_nil]
          rw [removeTok_some id hcur, hiderase]
          cases hbase : jmGet idx0 t with
          | none =>
            rw [cleanGet_none hbase]
            simp only [Option.getD_none, List.length_nil]
            rw [if_pos trivial]
            exact jmGet_jmDelete_self hnd
          | some s =>
            rw [cleanGet_some hbase]
            simp only [Option.getD_some]
            by_cases hs : s.length = 0
            · rw [if_pos hs, if_pos hs]
              exact jmGet_jmDelete_self hnd
            · rw [if_neg hs, if_neg hs]
              exact jmGet_jmSet_self _ _ _
      · have hget : jmGet (removeTok id idx t0) t = jmGet idx t := by
          cases hg : jmGet idx t0 with
          | none => rw [removeTok_none id hg]
          | some s =>
            rw [removeTok_some id hg]
            by_cases hlen : (jsDelete s id).length = 0
            · rw [if_pos hlen]
              exact jmGet_jmDelete_ne _ _ _ (fun h => ht h.symm)
            · rw [if_neg hlen]
              exact jmGet_jmSet_ne _ _ _ _ (fun h => ht h.symm)
        have hnmem : t ∈ done ++ [t0] ↔ t ∈ done := by
          rw [List.mem_append, List.mem_singleton]
          constructor
          · rintro (h1 | h1)
            · exact h1
            · exact absurd h1 ht
          · exact Or.inl
        rw [hget, hchar t]
        by_cases hd : t ∈ done
        · rw [if_pos hd, if_pos (hnmem.mpr hd)]
        · rw [if_neg hd, if_neg (fun h2 => hd (hnmem.mp h2))]
    have hrec := ih (done ++ [t0]) (removeTok id idx t0)
      (fun t htm => hsub t (List.mem_cons_of_mem _ htm)) hstepnd hstepchar
    rw [List.append_assoc, List.singleton_append] at hrec
    exact hrec

/-- Counterexample to C6 as stated: when the id is already stored, the
add-then-remove round trip loses the pre-existing document, so
documentsCount is not restored. -/
theorem C6_counterexample :
    ¬((getStats (removeDocument
        (addDocument
          (addDocument ⟨[], []⟩ "a".data "hi".data ⟨none, none⟩)
          "a".data "hi".data ⟨none, none⟩)
        "a".data)).documentsCount =
      (getStats (addDocument ⟨[], []⟩ "a".data "hi".data
        ⟨none, none⟩)).documentsCount) := by decide

/-- Claim C6 amended (proved): the round trip restores documentsCount and
every posting set provided the id is fresh, that is not currently in the
document store and in no posting set, as holds in every state reachable
under the documented remove-then-add discipline. -/
theorem C6_roundtrip (st : SearchIndex) (id : Id) (c : List Char)
    (m : Metadata)
    (hndI : keysNodup st.index)
    (hid : jmGet st.documents id = none)
    (hpost : ∀ tok, id ∉ postings st tok) :
    (getStats (removeDocument (addDocument st id c m) id)).documentsCount =
      (getStats st).documentsCount ∧
    ∀ tok, postings (removeDocument (addDocument st id c m) id) tok =
      postings st tok := by
  have hfresh : ∀ t, id ∉ (jmGet st.index t).getD [] := hpost
  have hget1 : jmGet (addDocument st id c m).documents id =
      some ⟨c, m⟩ := jmGet_jmSet_self _ _ _
  have hrem := removeDocument_of_get hget1
  have hadd := foldAdd_char id st.index hfresh (tokenize c) [] st.index hndI
    (by intro t; rw [if_neg (List.not_mem_nil t)])
  have hremchar := foldRemove_char id st.index hfresh (tokenize c)
    (tokenize c) [] ((tokenize c).foldl (addTok id) st.index)
    (fun t htm => htm)
    hadd.1
    (by
      intro t
      rw [if_neg (List.not_mem_nil t)]
      have h2 := hadd.2 t
      rw [List.nil_append] at h2
      by_cases ht : t ∈ tokenize c
      · rw [if_pos ht, h2, if_pos ht]
      · rw [if_neg ht, h2, if_neg ht])
  constructor
  · rw [hrem]
    show (jmDelete (addDocument st id c m).documents id).length =
      st.documents.length
    have hdocs : (addDocument st id c m).documents =
        jmSet st.documents id ⟨c, m⟩ := rfl
    rw [hdocs, jmDelete_jmSet_of_not_mem _ (jmGet_eq_none_iff.mp hid)]
  · intro tok
    rw [hrem]
    show ((jmGet ((tokenize ({ content := c, metadata := m } :
        Document).content).foldl (removeTok id)
        (addDocument st id c m).index) tok).getD []) = postings st tok
    have hidx : (addDocument st id c m).index =
        (tokenize c).foldl (addTok id) st.index := rfl
    rw [hidx]
    have h2 := hremchar.2 tok
    rw [List.nil_append] at h2
    show ((jmGet ((tokenize c).foldl (removeTok id)
      ((tokenize c).foldl (addTok id) st.index)) tok).getD []) =
      postings st tok
    rw [h2]
    by_cases ht : tok ∈ tokenize c
    · rw [if_pos ht, cleanGet_getD]
      rfl
    · rw [if_neg ht, if_neg ht]
      rfl

/-- Witness for C6 amended: round trip on a store already holding one
other document. -/
theorem C6_witness :
    (getStats (removeDocument
      (addDocument (addDocument ⟨[], []⟩ "b".data "word up".data ⟨none, none⟩)
        "a".data "hi ho word".data ⟨none, none⟩) "a".data)).documentsCount =
      (getStats (addDocument ⟨[], []⟩ "b".data "word up".data
        ⟨none, none⟩)).documentsCount ∧
    ∀ tok, postings (removeDocument
      (addDocument (addDocument ⟨[], []⟩ "b".data "word up".data ⟨none, none⟩)
        "a".data "hi ho word".data ⟨none, none⟩) "a".data) tok =
      postings (addDocument ⟨[], []⟩ "b".data "word up".data ⟨none, none⟩) tok :=
  C6_roundtrip _ "a".data "hi ho word".data ⟨none, none⟩ (by decide) (by decide)
    (by
      intro tok hmem
      unfold postings at hmem
      cases hg : jmGet (addDocument ⟨[], []⟩ "b".data "word up".data
          ⟨none, none⟩).index tok with
      | none =>
        rw [hg] at hmem
        exact List.not_mem_nil _ hmem
      | some s =>
        rw [hg] at hmem
        have hins := mem_of_jmGet hg
        have hs : s = ["b".data] := by
          have hall : ∀ p ∈ (addDocument ⟨[], []⟩ "b".data "word up".data
              ⟨none, none⟩).index, p.2 = ["b".data] := by decide
          exact hall _ hins
        rw [hs] at hmem
        exact absurd hmem (by decide))


/-! ### Claim C1: the inverted-index invariant -/

theorem mem_jsAdd {s : List Id} {x id : Id} :
    x ∈ jsAdd s id ↔ x ∈ s ∨ x = id := by
  rw [jsAdd]
  by_cases h : id ∈ s
  · rw [if_pos h]
    constructor
    · exact Or.inl
    · rintro (h1 | rfl)
      · exact h1
      · exact h
  · rw [if_neg h, List.mem_append, List.mem_singleton]

theorem jsAdd_nodup {s : List Id} (id : Id) (h : s.Nodup) :
    (jsAdd s id).Nodup := by
  rw [jsAdd]
  by_cases hm : id ∈ s
  · rw [if_pos hm]
    exact h
  · rw [if_neg hm]
    refine List.Nodup.append h (List.nodup_singleton _) ?_
    intro a ha hb
    rw [List.mem_singleton] at hb
    exact hm (hb ▸ ha)

/-- Postings of a bare index list, used while folding over tokens. -/
abbrev idxPost (idx : List (List Char × List Id)) (t : List Char) : List Id :=
  (jmGet idx t).getD []

/-- Well-formedness of an index map: duplicate-free token keys and
duplicate-free posting sets. -/
def IdxWF (idx : List (List Char × List Id)) : Prop :=
  keysNodup idx ∧ ∀ t s, jmGet idx t = some s → s.Nodup

theorem addTok_wf {idx : List (List Char × List Id)} {id : Id}
    (t0 : List Char) (h : IdxWF idx) : IdxWF (addTok id idx t0) := by
  obtain ⟨hnd, hsets⟩ := h
  cases hg : jmGet idx t0 with
  | none =>
    rw [addTok_none id hg]
    refine ⟨keysNodup_jmSet hnd, ?_⟩
    intro t s hget
    by_cases ht : t0 = t
    · subst ht
      rw [jmGet_jmSet_self] at hget
      cases hget
      exact List.nodup_singleton _
    · rw [jmGet_jmSet_ne _ _ _ _ ht] at hget
      exact hsets t s hget
  | some s0 =>
    rw [addTok_some id hg]
    refine ⟨keysNodup_jmSet hnd, ?_⟩
    intro t s hget
    by_cases ht : t0 = t
    · subst ht
      rw [jmGet_jmSet_self] at hget
      cases hget
      exact jsAdd_nodup _ (hsets _ _ hg)
    · rw [jmGet_jmSet_ne _ _ _ _ ht] at hget
      exact hsets t s hget

theorem removeTok_wf {idx : List (List Char × List Id)} {id : Id}
    (t0 : List Char) (h : IdxWF idx) : IdxWF (removeTok id idx t0) := by
  obtain ⟨hnd, hsets⟩ := h
  cases hg : jmGet idx t0 with
  | none =>
    rw [removeTok_none id hg]
    exact ⟨hnd, hsets⟩
  | some s0 =>
    rw [removeTok_some id hg]
    by_cases hlen : (jsDelete s0 id).length = 0
    · rw [if_pos hlen]
      refine ⟨keysNodup_jmDelete _ hnd, ?_⟩
      intro t s hget
      by_cases ht : t0 = t
      · subst ht
        rw [jmGet_jmDelete_self hnd] at hget
        exact Option.noConfusion hget
      · rw [jmGet_jmDelete_ne _ _ _ ht] at hget
        exact hsets t s hget
    · rw [if_neg hlen]
      refine ⟨keysNodup_jmSet hnd, ?_⟩
      intro t s hget
      by_cases ht : t0 = t
      · subst ht
        rw [jmGet_jmSet_self] at hget
        cases hget
        exact List.Nodup.erase _ (hsets _ _ hg)
      · rw [jmGet_jmSet_ne _ _ _ _ ht] at hget
        exact hsets t s hget

theorem foldAdd_wf (id : Id) (toks : List (List Char)) :
    ∀ idx, IdxWF idx → IdxWF (toks.foldl (addTok id) idx) := by
  induction toks with
  | nil => intro idx h; exact h
  | cons t0 ts ih =>
    intro idx h
    rw [List.foldl_cons]
    exact ih _ (addTok_wf t0 h)

theorem foldRemove_wf (id : Id) (toks : List (List Char)) :
    ∀ idx, IdxWF idx → IdxWF (toks.foldl (removeTok id) idx) := by
  induction toks with
  | nil => intro idx h; exact h
  | cons t0 ts ih =>
    intro idx h
    rw [List.foldl_cons]
    exact ih _ (removeTok_wf t0 h)

theorem foldAdd_mem (id : Id) (toks : List (List Char)) :
    ∀ (idx : List (List Char × List Id)) (x : Id) (t : List Char),
      x ∈ idxPost (toks.foldl (addTok id) idx) t ↔
        x ∈ idxPost idx t ∨ (x = id ∧ t ∈ toks) := by
  induction toks with
  | nil =>
    intro idx x t
    rw [List.foldl_nil]
    constructor
    · exact Or.inl
    · rintro (h | ⟨_, h⟩)
      · exact h
      · exact absurd h (List.not_mem_nil t)
  | cons t0 ts ih =>
    intro idx x t
    rw [List.foldl_cons, ih]
    have hstep : x ∈ idxPost (addTok id idx t0) t ↔
        x ∈ idxPost idx t ∨ (x = id ∧ t = t0) := by
      by_cases ht : t0 = t
      · subst ht
        cases hg : jmGet idx t0 with
        | none =>
          rw [idxPost, addTok_none id hg, jmGet_jmSet_self, idxPost, hg]
          constructor
          · intro h
            exact Or.inr ⟨List.mem_singleton.mp h, rfl⟩
          · rintro (h | ⟨rfl, _⟩)
            · exact absurd h (List.not_mem_nil x)
            · exact List.mem_singleton.mpr rfl
        | some s0 =>
          rw [idxPost, addTok_some id hg, jmGet_jmSet_self, idxPost, hg]
          rw [Option.getD_some, Option.getD_some, mem_jsAdd]
          constructor
          · rintro (h | rfl)
            · exact Or.inl h
            · exact Or.inr ⟨rfl, rfl⟩
          · rintro (h | ⟨rfl, _⟩)
            · exact Or.inl h
            · exact Or.inr rfl
      · have hget : jmGet (addTok id idx t0) t = jmGet idx t := by
          cases hg : jmGet idx t0 with
          | none => rw [addTok_none id hg]; exact jmGet_jmSet_ne _ _ _ _ ht
          | some s0 => rw [addTok_some id hg]; exact jmGet_jmSet_ne _ _ _ _ ht
        rw [idxPost, hget]
        constructor
        · exact Or.inl
        · rintro (h | ⟨rfl, rfl⟩)
          · exact h
          · exact absurd rfl ht
    rw [hstep]
    constructor
    · rintro ((h | ⟨rfl, rfl⟩) | ⟨rfl, hts⟩)
      · exact Or.inl h
      · exact Or.inr ⟨rfl, List.mem_cons_self _ _⟩
      · exact Or.inr ⟨rfl, List.mem_cons_of_mem _ hts⟩
    · rintro (h | ⟨rfl, hmem⟩)
      · exact Or.inl (Or.inl h)
      · rcases List.mem_cons.mp hmem with rfl | hts
        · exact Or.inl (Or.inr ⟨rfl, rfl⟩)
        · exact Or.inr ⟨rfl, hts⟩

theorem foldRemove_mem (id : Id) (toks : List (List Char)) :
    ∀ (idx : List (List Char × List Id)) (x : Id) (t : List Char),
      IdxWF idx →
      (x ∈ idxPost (toks.foldl (removeTok id) idx) t ↔
        x ∈ idxPost idx t ∧ ¬(x = id ∧ t ∈ toks)) := by
  induction toks with
  | nil =>
    intro idx x t _
    rw [List.foldl_nil]
    constructor
    · intro h
      exact ⟨h, fun h2 => absurd h2.2 (List.not_mem_nil t)⟩
    · exact And.left
  | cons t0 ts ih =>
    intro idx x t hwf
    rw [List.foldl_cons, ih _ _ _ (removeTok_wf t0 hwf)]
    have hstep : x ∈ idxPost (removeTok id idx t0) t ↔
        x ∈ idxPost idx t ∧ ¬(x = id ∧ t = t0) := by
      by_cases ht : t0 = t
      · subst ht
        cases hg : jmGet idx t0 with
        | none =>
          simp only [idxPost, removeTok_none id hg, hg, Option.getD_none]
          constructor
          · intro h
            exact absurd h (List.not_mem_nil x)
          · intro h
            exact absurd h.1 (List.not_mem_nil x)
        | some s0 =>
          have hs0 : s0.Nodup := hwf.2 _ _ hg
          rw [removeTok_some id hg]
          by_cases hlen : (jsDelete s0 id).length = 0
          · rw [if_pos hlen, idxPost, jmGet_jmDelete_self hwf.1, idxPost, hg]
            rw [Option.getD_none, Option.getD_some]
            constructor
            · intro h
              exact absurd h (List.not_mem_nil x)
            · rintro ⟨hmem, hne⟩
              have hxid : x ≠ id := fun h => hne ⟨h, rfl⟩
              have : x ∈ jsDelete s0 id :=
                (List.mem_erase_of_ne hxid).mpr hmem
              rw [List.length_eq_zero.mp hlen] at this
              exact absurd this (List.not_mem_nil x)
          · rw [if_neg hlen, idxPost, jmGet_jmSet_self, idxPost, hg]
            rw [Option.getD_some, Option.getD_some]
            rw [jsDelete, hs0.mem_erase_iff]
            constructor
            · rintro ⟨hne, hmem⟩
              exact ⟨hmem, fun h => hne h.1⟩
            · rintro ⟨hmem, hne⟩
              exact ⟨fun h => hne ⟨h, rfl⟩, hmem⟩
      · have hget : jmGet (removeTok id idx t0) t = jmGet idx t := by
          cases hg : jmGet idx t0 with
          | none => rw [removeTok_none id hg]
          | some s0 =>
            rw [removeTok_some id hg]
            by_cases hlen : (jsDelete s0 id).length = 0
            · rw [if_pos hlen]
              exact jmGet_jmDelete_ne _ _ _ ht
            · rw [if_neg hlen]
              exact jmGet_jmSet_ne _ _ _ _ ht
        rw [idxPost, hget]
        constructor
        · intro h
          exact ⟨h, fun h2 => ht h2.2.symm⟩
        · exact And.left
    rw [hstep]
    constructor
    · rintro ⟨⟨hmem, hne0⟩, hnets⟩
      refine ⟨hmem, ?_⟩
      rintro ⟨rfl, hmemc⟩
      rcases List.mem_cons.mp hmemc with rfl | hts
      · exact hne0 ⟨rfl, rfl⟩
      · exact hnets ⟨rfl, hts⟩
    · rintro ⟨hmem, hne⟩
      refine ⟨⟨hmem, ?_⟩, ?_⟩
      · rintro ⟨rfl, rfl⟩
        exact hne ⟨rfl, List.mem_cons_self _ _⟩
      · rintro ⟨rfl, hts⟩
        exact hne ⟨rfl, List.mem_cons_of_mem _ hts⟩

/-- The SearchIndex states reachable from the empty index by addDocument,
removeDocument and clear, where addDocument is only invoked on ids not
currently stored (the documented remove-then-add caller discipline). -/
inductive Reachable : SearchIndex → Prop
  | empty : Reachable ⟨[], []⟩
  | add {st : SearchIndex} (id : Id) (c : List Char) (m : Metadata) :
      Reachable st → jmGet st.documents id = none →
      Reachable (addDocument st id c m)
  | remove {st : SearchIndex} (id : Id) :
      Reachable st → Reachable (removeDocument st id)
  | wipe {st : SearchIndex} : Reachable st → Reachable (clearIndex st)

/-- The full invariant carried through the reachability induction. -/
def C1Inv (st : SearchIndex) : Prop :=
  IdxWF st.index ∧ keysNodup st.documents ∧
  ∀ (tok : List Char) (id : Id),
    id ∈ postings st tok ↔
      ∃ d, jmGet st.documents id = some d ∧ tok ∈ tokenize d.content

theorem c1Inv_empty : C1Inv ⟨[], []⟩ := by
  refine ⟨⟨List.nodup_nil, ?_⟩, List.nodup_nil, ?_⟩
  · intro t s hget
    exact Option.noConfusion hget
  · intro tok id
    constructor
    · intro h
      exact absurd h (List.not_mem_nil id)
    · rintro ⟨d, hd, _⟩
      exact Option.noConfusion hd

theorem c1Inv_add {st : SearchIndex} (id : Id) (c : List Char) (m : Metadata)
    (hinv : C1Inv st) (hfresh : jmGet st.documents id = none) :
    C1Inv (addDocument st id c m) := by
  obtain ⟨hwf, hnd, hiff⟩ := hinv
  refine ⟨?_, keysNodup_jmSet hnd, ?_⟩
  · rw [addDocument_index]
    exact foldAdd_wf id (tokenize c) st.index hwf
  · intro tok x
    have hpost : x ∈ postings (addDocument st id c m) tok ↔
        x ∈ postings st tok ∨ (x = id ∧ tok ∈ tokenize c) := by
      rw [postings, addDocument_index]
      exact foldAdd_mem id (tokenize c) st.index x tok
    rw [hpost]
    have hdocs : (addDocument st id c m).documents =
        jmSet st.documents id ⟨c, m⟩ := rfl
    by_cases hx : x = id
    · subst hx
      have hnew : jmGet (addDocument st x c m).documents x =
          some ⟨c, m⟩ := jmGet_jmSet_self _ _ _
      constructor
      · rintro (h | ⟨_, htok⟩)
        · obtain ⟨d, hd, _⟩ := (hiff tok x).mp h
          rw [hfresh] at hd
          exact Option.noConfusion hd
        · exact ⟨⟨c, m⟩, hnew, htok⟩
      · rintro ⟨d, hd, htok⟩
        rw [hnew] at hd
        cases hd
        exact Or.inr ⟨rfl, htok⟩
    · have hold : jmGet (addDocument st id c m).documents x =
          jmGet st.documents x := by
        rw [hdocs]
        exact jmGet_jmSet_ne _ _ _ _ (fun h => hx h.symm)
      constructor
      · rintro (h | ⟨hxi, _⟩)
        · obtain ⟨d, hd, htok⟩ := (hiff tok x).mp h
          exact ⟨d, by rw [hold]; exact hd, htok⟩
        · exact absurd hxi hx
      · rintro ⟨d, hd, htok⟩
        rw [hold] at hd
        exact Or.inl ((hiff tok x).mpr ⟨d, hd, htok⟩)

theorem c1Inv_remove {st : SearchIndex} (id : Id) (hinv : C1Inv st) :
    C1Inv (removeDocument st id) := by
  obtain ⟨hwf, hnd, hiff⟩ := hinv
  cases hg : jmGet st.documents id with
  | none =>
    have : removeDocument st id = st := by
      unfold removeDocument
      rw [hg]
    rw [this]
    exact ⟨hwf, hnd, hiff⟩
  | some doc =>
    have hrem := removeDocument_of_get hg
    rw [hrem]
    refine ⟨foldRemove_wf id (tokenize doc.content) st.index hwf,
      keysNodup_jmDelete _ hnd, ?_⟩
    intro tok x
    have hpost : x ∈ (jmGet ((tokenize doc.content).foldl (removeTok id)
        st.index) tok).getD [] ↔
        x ∈ idxPost st.index tok ∧ ¬(x = id ∧ tok ∈ tokenize doc.content) :=
      foldRemove_mem id (tokenize doc.content) st.index x tok hwf
    rw [postings]
    rw [hpost]
    by_cases hx : x = id
    · subst hx
      constructor
      · rintro ⟨hmem, hne⟩
        obtain ⟨d, hd, htok⟩ := (hiff tok x).mp hmem
        rw [hg] at hd
        cases hd
        exact absurd ⟨rfl, htok⟩ hne
      · rintro ⟨d, hd, _⟩
        rw [show (⟨(tokenize doc.content).foldl (removeTok x) st.index,
          jmDelete st.documents x⟩ : SearchIndex).documents =
          jmDelete st.documents x from rfl] at hd
        rw [jmGet_jmDelete_self hnd] at hd
        exact Option.noConfusion hd
    · constructor
      · rintro ⟨hmem, _⟩
        obtain ⟨d, hd, htok⟩ := (hiff tok x).mp hmem
        refine ⟨d, ?_, htok⟩
        show jmGet (jmDelete st.documents id) x = some d
        rw [jmGet_jmDelete_ne _ _ _ (fun h => hx h.symm)]
        exact hd
      · rintro ⟨d, hd, htok⟩
        have hd2 : jmGet st.documents x = some d := by
          rw [show (⟨(tokenize doc.content).foldl (removeTok id) st.index,
            jmDelete st.documents id⟩ : SearchIndex).documents =
            jmDelete st.documents id from rfl] at hd
          rw [jmGet_jmDelete_ne _ _ _ (fun h => hx h.symm)] at hd
          exact hd
        exact ⟨(hiff tok x).mpr ⟨d, hd2, htok⟩,
          fun h2 => hx h2.1⟩

theorem c1Inv_reachable {st : SearchIndex} (h : Reachable st) : C1Inv st := by
  induction h with
  | empty => exact c1Inv_empty
  | add id c m _ hfresh ih => exact c1Inv_add id c m ih hfresh
  | remove id _ ih => exact c1Inv_remove id ih
  | wipe _ _ => exact c1Inv_empty

/-- Claim C1 (confirmed): in every state reachable from the empty index
under the remove-then-add caller discipline, a document id belongs to the
posting set of a token exactly when that token occurs in the tokenization
of the document's currently stored content; in particular no posting
references a removed document. -/
theorem C1_index_invariant (st : SearchIndex) (h : Reachable st)
    (tok : List Char) (id : Id) :
    id ∈ postings st tok ↔
      ∃ d, jmGet st.documents id = some d ∧ tok ∈ tokenize d.content :=
  (c1Inv_reachable h).2.2 tok id

/-- Witness for C1 on the concrete reachable state that adds two documents
and removes one. -/
theorem C1_witness :
    "d1".data ∈ postings
      (removeDocument
        (addDocument (addDocument ⟨[], []⟩ "d1".data "alpha beta".data
          ⟨none, none⟩) "d2".data "alpha".data ⟨none, none⟩) "d2".data)
      "alpha".data ↔
    ∃ d, jmGet (removeDocument
        (addDocument (addDocument ⟨[], []⟩ "d1".data "alpha beta".data
          ⟨none, none⟩) "d2".data "alpha".data ⟨none, none⟩) "d2".data).documents
      "d1".data = some d ∧ "alpha".data ∈ tokenize d.content :=
  C1_index_invariant _
    (Reachable.remove "d2".data
      (Reachable.add "d2".data "alpha".data ⟨none, none⟩
        (Reachable.add "d1".data "alpha beta".data ⟨none, none⟩
          Reachable.empty (by decide))
        (by decide)))
    "alpha".data "d1".data


/-! ### Claim C5: exact-phrase dominance -/

/-- x is ranked ahead of y in the sequence l: l splits as a part before x,
then x, then a part containing y. -/
def rankedBefore (l : List Id) (x y : Id) : Prop :=
  ∃ l1 l2, l = l1 ++ x :: l2 ∧ y ∈ l2

theorem sorted_split_of_lt {l : List (Id × ℚ)} {p q : Id × ℚ}
    (hs : l.Sorted byScoreDesc) (hp : p ∈ l) (hq : q ∈ l) (hlt : q.2 < p.2) :
    ∃ l1 l2, l = l1 ++ p :: l2 ∧ q ∈ l2 := by
  induction l with
  | nil => exact absurd hp (List.not_mem_nil p)
  | cons a l2 ih =>
    rw [List.sorted_cons] at hs
    rcases List.mem_cons.mp hp with rfl | hp2
    · have hq2 : q ∈ l2 := by
        rcases List.mem_cons.mp hq with rfl | h
        · exact absurd hlt (lt_irrefl _)
        · exact h
      exact ⟨[], l2, rfl, hq2⟩
    · have hq2 : q ∈ l2 := by
        rcases List.mem_cons.mp hq with rfl | h
        · exact absurd hlt (not_lt.mpr (hs.1 p hp2))
        · exact h
      obtain ⟨m1, m2, rfl, hqm⟩ := ih hs.2 hp2 hq2
      exact ⟨a :: m1, m2, rfl, hqm⟩

set_option maxRecDepth 8000 in
/-- Counterexample to C5 as stated: one document contains the full query
alpha beta as a substring and scores 163; the other shares only the single
query token beta, unrelated to the phrase, but its 39 repetitions of that
word accumulate a fuzzy bonus that brings it to 166, so search ranks the
token-sharing document first. -/
theorem C5_counterexample :
    jsIncludes ("alpha beta".data.map Char.toLower)
        ("alpha beta".data.map Char.toLower) = true ∧
    ((tokenize "alpha beta".data).filter (fun t =>
      jsIncludes ("beta beta beta beta beta beta beta beta beta beta beta beta beta beta beta beta beta beta beta beta beta beta beta beta beta beta beta beta beta beta beta beta beta beta beta beta beta beta beta".data.map Char.toLower) t)).length = 1 ∧
    jsIncludes ("beta beta beta beta beta beta beta beta beta beta beta beta beta beta beta beta beta beta beta beta beta beta beta beta beta beta beta beta beta beta beta beta beta beta beta beta beta beta beta".data.map Char.toLower)
        ("alpha beta".data.map Char.toLower) = false ∧
    search ⟨[], [("d1".data, ⟨"alpha beta".data, ⟨none, none⟩⟩),
        ("d2".data, ⟨"beta beta beta beta beta beta beta beta beta beta beta beta beta beta beta beta beta beta beta beta beta beta beta beta beta beta beta beta beta beta beta beta beta beta beta beta beta beta beta".data, ⟨none, none⟩⟩)]⟩ 0
      "alpha beta".data 50 = ["d2".data, "d1".data] := by
  refine ⟨by decide, by decide, by decide, by decide⟩

/-- Claim C5 amended (proved): with the premises of the claim, and provided
additionally that the second document scores below the exact-phrase bonus
of 100 (its fuzzy and recency bonuses are not otherwise bounded), search
ranks the phrase-matching document strictly ahead whenever the second
document is returned at all. -/
theorem C5_phrase_dominance (st : SearchIndex) (now : ℚ) (q : List Char)
    (limit : Nat) (d1 d2 : Id) (doc1 doc2 : Document)
    (hnd : keysNodup st.documents)
    (hne : d1 ≠ d2)
    (h1 : jmGet st.documents d1 = some doc1)
    (h2 : jmGet st.documents d2 = some doc2)
    (hphrase : jsIncludes (doc1.content.map Char.toLower)
      (q.map Char.toLower) = true)
    (hshare : ((tokenize q).filter (fun t =>
      jsIncludes (doc2.content.map Char.toLower) t)).length = 1)
    (hnophrase : jsIncludes (doc2.content.map Char.toLower)
      (q.map Char.toLower) = false)
    (hbound : scoreDoc (tokenize q) (q.map Char.toLower) now doc2 < 100)
    (hd2 : d2 ∈ search st now q limit) :
    rankedBefore (search st now q limit) d1 d2 := by
  have hs1 : (100 : ℚ) ≤ scoreDoc (tokenize q) (q.map Char.toLower) now doc1 :=
    scoreDoc_ge_100_of_phrase _ _ _ _ hphrase
  have htok : ¬(tokenize q).length = 0 := by
    intro h0
    rw [List.length_eq_zero] at h0
    rw [h0] at hshare
    simp at hshare
  have hsearch : search st now q limit =
      ((sortDesc (searchScores st.documents (tokenize q)
        (q.map Char.toLower) now)).take limit).map Prod.fst := by
    rw [search]
    rw [if_neg htok]
  have hscoreseq : searchScores st.documents (tokenize q)
      (q.map Char.toLower) now =
      scoresSimple st.documents (tokenize q) (q.map Char.toLower) now :=
    searchScores_eq _ _ _ _ hnd
  have hSsorted : (sortDesc (searchScores st.documents (tokenize q)
      (q.map Char.toLower) now)).Sorted byScoreDesc :=
    List.sorted_insertionSort _ _
  have hSkeys : ((sortDesc (searchScores st.documents (tokenize q)
      (q.map Char.toLower) now)).map Prod.fst).Nodup := by
    refine ((List.perm_insertionSort byScoreDesc _).map Prod.fst).nodup_iff.mpr ?_
    rw [hscoreseq]
    exact List.Nodup.sublist (scoresSimple_keys_sublist _ _ _ _) hnd
  have hd1mem : (d1, scoreDoc (tokenize q) (q.map Char.toLower) now doc1) ∈
      sortDesc (searchScores st.documents (tokenize q)
        (q.map Char.toLower) now) := by
    rw [sortDesc, List.mem_insertionSort, hscoreseq, scoresSimple]
    exact List.mem_map.mpr ⟨(d1, doc1),
      List.mem_filter.mpr ⟨mem_of_jmGet h1, by
        simp only [decide_eq_true_eq]
        linarith⟩, rfl⟩
  rw [hsearch] at hd2
  obtain ⟨p, hpTake, hp1⟩ := List.mem_map.mp hd2
  have hpS : p ∈ sortDesc (searchScores st.documents (tokenize q)
      (q.map Char.toLower) now) := List.mem_of_mem_take hpTake
  have hpScores : p ∈ scoresSimple st.documents (tokenize q)
      (q.map Char.toLower) now := by
    rw [sortDesc, List.mem_insertionSort, hscoreseq] at hpS
    exact hpS
  obtain ⟨d, hdget, hdscore, _⟩ := mem_scoresSimple hnd hpScores
  rw [hp1, h2] at hdget
  cases hdget
  have hp2 : p = (d2, scoreDoc (tokenize q) (q.map Char.toLower) now doc2) := by
    obtain ⟨pa, pb⟩ := p
    simp only at hp1 hdscore
    rw [hp1, hdscore]
  have hlt : p.2 < (d1, scoreDoc (tokenize q) (q.map Char.toLower) now doc1).2 := by
    rw [hp2]
    simp only
    linarith
  obtain ⟨l1, l2, hSeq, hpl2⟩ :=
    sorted_split_of_lt hSsorted hd1mem hpS hlt
  have hd2l2 : d2 ∈ l2.map Prod.fst := List.mem_map.mpr ⟨p, hpl2, hp1⟩
  have hSkeys2 := hSkeys
  rw [hSeq, List.map_append, List.map_cons, List.nodup_append] at hSkeys2
  have hd2notl1 : d2 ∉ l1.map Prod.fst := by
    intro hmem
    exact hSkeys2.2.2 hmem (List.mem_cons_of_mem _ hd2l2)
  rw [hSeq, List.take_append_eq_append_take] at hd2
  by_cases hlim : limit ≤ l1.length
  · exfalso
    have hz : limit - l1.length = 0 := Nat.sub_eq_zero_of_le hlim
    rw [hz, List.take_zero, List.append_nil] at hd2
    obtain ⟨p', hp', hp'1⟩ := List.mem_map.mp hd2
    exact hd2notl1 (List.mem_map.mpr ⟨p', List.mem_of_mem_take hp', hp'1⟩)
  · have hpos : 0 < limit - l1.length := by omega
    rw [List.take_of_length_le (by omega : l1.length ≤ limit),
      List.take_cons hpos, List.map_append, List.map_cons] at hd2
    have hsearch2 : search st now q limit =
        l1.map Prod.fst ++ d1 :: (l2.take (limit - l1.length - 1)).map
          Prod.fst := by
      rw [hsearch, hSeq, List.take_append_eq_append_take,
        List.take_of_length_le (by omega : l1.length ≤ limit),
        List.take_cons hpos, List.map_append, List.map_cons]
    refine ⟨l1.map Prod.fst,
      (l2.take (limit - l1.length - 1)).map Prod.fst, hsearch2, ?_⟩
    rcases List.mem_append.mp hd2 with hmem | hmem
    · exact absurd hmem hd2notl1
    · rcases List.mem_cons.mp hmem with heq | hmem2
      · exact absurd heq.symm hne
      · exact hmem2

/-- Witness for C5 amended on the concrete pair from the verification of
the ranking scenario: doc1 contains the query project alpha (score 163),
doc2 shares only the token project (score 14). -/
theorem C5_witness :
    rankedBefore
      (search ⟨[], [("d1".data, ⟨"the project alpha report".data, ⟨none, none⟩⟩),
        ("d2".data, ⟨"project budget".data, ⟨none, none⟩⟩)]⟩ 0
        "project alpha".data 50)
      "d1".data "d2".data :=
  C5_phrase_dominance _ 0 "project alpha".data 50 "d1".data "d2".data
    ⟨"the project alpha report".data, ⟨none, none⟩⟩
    ⟨"project budget".data, ⟨none, none⟩⟩
    (by decide) (by decide) (by decide) (by decide) (by decide) (by decide)
    (by decide) (by decide) (by decide)


/-! ### Claim C7: levenshteinDistance computes the minimal edit distance -/

/-- The textbook edit-distance recurrence on string fronts; the DP matrix
of levenshteinDistance computes the same recurrence on string suffixes
(matrix cell (i, j) holds the distance between the length-j prefix of str1
and the length-i prefix of str2, compared from their last characters
backwards), which is connected to this definition through list reversal
below. -/
def led : List Char → List Char → Nat
  | [], ys => ys.length
  | _ :: xs, [] => xs.length + 1
  | x :: xs, y :: ys =>
    if x = y then led xs ys
    else 1 + min (led xs ys) (min (led xs (y :: ys)) (led (x :: xs) ys))

theorem led_nil_left (ys : List Char) : led [] ys = ys.length := by
  simp [led]

theorem led_nil_right (xs : List Char) : led xs [] = xs.length := by
  cases xs with
  | nil => simp [led]
  | cons x xs => simp [led]

theorem led_cons_cons (x y : Char) (xs ys : List Char) :
    led (x :: xs) (y :: ys) =
      if x = y then led xs ys
      else 1 + min (led xs ys) (min (led xs (y :: ys)) (led (x :: xs) ys)) := by
  simp only [led]

theorem led_self : ∀ a : List Char, led a a = 0 := by
  intro a
  induction a with
  | nil => simp [led]
  | cons x xs ih => rw [led_cons_cons, if_pos rfl, ih]

theorem led_symm : ∀ a b : List Char, led a b = led b a := by
  intro a
  induction a with
  | nil => intro b; rw [led_nil_left, led_nil_right]
  | cons x xs iha =>
    intro b
    induction b with
    | nil => rw [led_nil_left, led_nil_right]
    | cons y ys ihb =>
      rw [led_cons_cons, led_cons_cons]
      by_cases hxy : x = y
      · rw [if_pos hxy, if_pos hxy.symm, iha ys]
      · rw [if_neg hxy, if_neg (fun h => hxy h.symm)]
        rw [iha ys, iha (y :: ys), ihb]
        omega

/-- The three head-edit bounds, proved together by strong induction on the
total length: deleting, inserting or substituting the first character of
the left argument changes the distance by at most one. -/
theorem led_head : ∀ (n : Nat) (xs b : List Char),
    xs.length + b.length ≤ n →
    (∀ c, led xs b ≤ led (c :: xs) b + 1) ∧
    (∀ c, led (c :: xs) b ≤ led xs b + 1) ∧
    (∀ c d, led (c :: xs) b ≤ led (d :: xs) b + 1) := by
  intro n
  induction n with
  | zero =>
    intro xs b hlen
    have hxs : xs = [] := List.length_eq_zero.mp (by omega)
    have hb : b = [] := List.length_eq_zero.mp (by omega)
    subst hxs
    subst hb
    refine ⟨fun c => ?_, fun c => ?_, fun c d => ?_⟩ <;>
      simp [led_nil_right, led_nil_left]
  | succ n ih =>
    intro xs b hlen
    cases b with
    | nil =>
      refine ⟨fun c => ?_, fun c => ?_, fun c d => ?_⟩ <;>
        · rw [led_nil_right, led_nil_right]
          simp only [List.length_cons]
          omega
    | cons y ys =>
      have hmeas1 : ys.length + xs.length ≤ n := by
        simp at hlen
        omega
      have hmeas2 : xs.length + ys.length ≤ n := by omega
      -- distance grows by at most one when a character is added in front
      -- of the right argument, via symmetry and the inner bounds at a
      -- smaller measure
      have hRins : led xs (y :: ys) ≤ led xs ys + 1 := by
        rw [led_symm xs (y :: ys), led_symm xs ys]
        exact (ih ys xs hmeas1).2.1 y
      have hRdel : led xs ys ≤ led xs (y :: ys) + 1 := by
        rw [led_symm xs (y :: ys), led_symm xs ys]
        exact (ih ys xs hmeas1).1 y
      refine ⟨fun c => ?_, fun c => ?_, fun c d => ?_⟩
      · rw [led_cons_cons]
        by_cases hcy : c = y
        · rw [if_pos hcy]
          exact hRins
        · rw [if_neg hcy]
          have hA : led xs ys ≤ led (c :: xs) ys + 1 := (ih xs ys hmeas2).1 c
          have h2 : led xs (y :: ys) ≤ led (c :: xs) ys + 2 := by omega
          omega
      · rw [led_cons_cons]
        by_cases hcy : c = y
        · rw [if_pos hcy]
          exact hRdel
        · rw [if_neg hcy]
          omega
      · rw [led_cons_cons, led_cons_cons]
        by_cases hcy : c = y <;> by_cases hdy : d = y
        · rw [if_pos hcy, if_pos hdy]
          omega
        · rw [if_pos hcy, if_neg hdy]
          have hA : led xs ys ≤ led (d :: xs) ys + 1 := (ih xs ys hmeas2).1 d
          omega
        · rw [if_neg hcy, if_pos hdy]
          omega
        · rw [if_neg hcy, if_neg hdy]
          have hAA : led (c :: xs) ys ≤ led (d :: xs) ys + 1 :=
            (ih xs ys hmeas2).2.2 c d
          omega


/-- Editing one character anywhere in the left argument changes the
distance by at most one: the positional generalization of led_head, by
induction on the prefix before the edit with an inner induction on the
right argument. -/
theorem led_edit_left : ∀ (pre : List Char) (suf : List Char) (c d : Char)
    (b : List Char),
    (led (pre ++ suf) b ≤ led (pre ++ c :: suf) b + 1) ∧
    (led (pre ++ c :: suf) b ≤ led (pre ++ suf) b + 1) ∧
    (led (pre ++ c :: suf) b ≤ led (pre ++ d :: suf) b + 1) := by
  intro pre
  induction pre with
  | nil =>
    intro suf c d b
    exact ⟨(led_head (suf.length + b.length) suf b le_rfl).1 c,
      (led_head (suf.length + b.length) suf b le_rfl).2.1 c,
      (led_head (suf.length + b.length) suf b le_rfl).2.2 c d⟩
  | cons p ps ih =>
    intro suf c d b
    induction b with
    | nil =>
      rw [List.cons_append, List.cons_append, List.cons_append,
        led_nil_right, led_nil_right, led_nil_right]
      simp only [List.length_cons, List.length_append]
      refine ⟨by omega, by omega, by omega⟩
    | cons y ys ihb =>
      rw [List.cons_append, List.cons_append, List.cons_append,
        led_cons_cons, led_cons_cons, led_cons_cons]
      have ih1 := ih suf c d ys
      have ih2 := ih suf c d (y :: ys)
      by_cases hpy : p = y
      · rw [if_pos hpy, if_pos hpy, if_pos hpy]
        exact ⟨ih1.1, ih1.2.1, ih1.2.2⟩
      · rw [if_neg hpy, if_neg hpy, if_neg hpy]
        have j1 : led (p :: (ps ++ suf)) ys ≤
            led (p :: (ps ++ c :: suf)) ys + 1 := by
          simpa using ihb.1
        have j2 : led (p :: (ps ++ c :: suf)) ys ≤
            led (p :: (ps ++ suf)) ys + 1 := by
          simpa using ihb.2.1
        have j3 : led (p :: (ps ++ c :: suf)) ys ≤
            led (p :: (ps ++ d :: suf)) ys + 1 := by
          simpa using ihb.2.2
        obtain ⟨k11, k12, k13⟩ := ih1
        obtain ⟨k21, k22, k23⟩ := ih2
        refine ⟨by omega, by omega, by omega⟩

/-- One single-character edit: insertion, deletion or substitution at an
arbitrary position. -/
inductive EditStep : List Char → List Char → Prop
  | ins (pre suf : List Char) (c : Char) :
      EditStep (pre ++ suf) (pre ++ c :: suf)
  | del (pre suf : List Char) (c : Char) :
      EditStep (pre ++ c :: suf) (pre ++ suf)
  | sub (pre suf : List Char) (c d : Char) :
      EditStep (pre ++ c :: suf) (pre ++ d :: suf)

/-- A chain of exactly n single-character edits. -/
inductive EditSeq : Nat → List Char → List Char → Prop
  | refl (a : List Char) : EditSeq 0 a a
  | step {a b c : List Char} {n : Nat} :
      EditStep a b → EditSeq n b c → EditSeq (n + 1) a c

theorem editStep_cons {a b : List Char} (ch : Char)
    (h : EditStep a b) : EditStep (ch :: a) (ch :: b) := by
  cases h with
  | ins pre suf c => exact EditStep.ins (ch :: pre) suf c
  | del pre suf c => exact EditStep.del (ch :: pre) suf c
  | sub pre suf c d => exact EditStep.sub (ch :: pre) suf c d

theorem editSeq_cons {n : Nat} {a b : List Char} (ch : Char)
    (h : EditSeq n a b) : EditSeq n (ch :: a) (ch :: b) := by
  induction h with
  | refl a => exact EditSeq.refl (ch :: a)
  | step hstep _ ih => exact EditSeq.step (editStep_cons ch hstep) ih

theorem EditSeq.ofNilLeft : ∀ ys : List Char, EditSeq ys.length [] ys := by
  intro ys
  induction ys with
  | nil => exact EditSeq.refl []
  | cons y ys ih =>
    exact EditSeq.step (EditStep.ins [] [] y) (editSeq_cons y ih)

theorem EditSeq.toNilRight : ∀ xs : List Char, EditSeq xs.length xs [] := by
  intro xs
  induction xs with
  | nil => exact EditSeq.refl []
  | cons x xs ih => exact EditSeq.step (EditStep.del [] xs x) ih

/-- The DP value is achieved by an explicit script of edits. -/
theorem editSeq_led : ∀ a b : List Char, EditSeq (led a b) a b := by
  intro a
  induction a with
  | nil =>
    intro b
    rw [led_nil_left]
    exact EditSeq.ofNilLeft b
  | cons x xs iha =>
    intro b
    induction b with
    | nil =>
      rw [led_nil_right]
      exact EditSeq.toNilRight (x :: xs)
    | cons y ys ihb =>
      rw [led_cons_cons]
      by_cases hxy : x = y
      · rw [if_pos hxy]
        subst hxy
        exact editSeq_cons x (iha ys)
      · rw [if_neg hxy]
        have hcase : 1 + min (led xs ys) (min (led xs (y :: ys))
              (led (x :: xs) ys)) = led xs ys + 1 ∨
            1 + min (led xs ys) (min (led xs (y :: ys))
              (led (x :: xs) ys)) = led xs (y :: ys) + 1 ∨
            1 + min (led xs ys) (min (led xs (y :: ys))
              (led (x :: xs) ys)) = led (x :: xs) ys + 1 := by omega
        rcases hcase with h | h | h <;> rw [h]
        · exact EditSeq.step (EditStep.sub [] xs x y) (editSeq_cons y (iha ys))
        · exact EditSeq.step (EditStep.del [] xs x) (iha (y :: ys))
        · exact EditSeq.step (EditStep.ins [] (x :: xs) y) (editSeq_cons y ihb)

/-- The DP value lower-bounds the length of every script of edits. -/
theorem led_le_of_editSeq : ∀ {n : Nat} {a b : List Char},
    EditSeq n a b → led a b ≤ n := by
  intro n a b h
  induction h with
  | refl a => rw [led_self]
  | @step a1 b1 c1 m hstep hseq ih =>
    have key : led a1 c1 ≤ led b1 c1 + 1 := by
      cases hstep with
      | ins pre suf ch => exact (led_edit_left pre suf ch ch c1).1
      | del pre suf ch => exact (led_edit_left pre suf ch ch c1).2.1
      | sub pre suf ch dh => exact (led_edit_left pre suf ch dh c1).2.2
    omega


/-- The inner cells of the row of led values for a fixed (already
consumed, reversed) right prefix r2: cell for column j holds the distance
between the reversed length-j prefix of str1 and r2, with s1done carrying
the reversed prefix consumed so far. -/
def ledCells (r2 : List Char) (s1done : List Char) : List Char → List Nat
  | [] => []
  | c1 :: cs => led (c1 :: s1done) r2 :: ledCells r2 (c1 :: s1done) cs

/-- A full row of led values, matching one row of the DP matrix. -/
def ledRow (str1 r2 : List Char) : List Nat :=
  led [] r2 :: ledCells r2 [] str1

theorem ledCells_nil_r2 : ∀ (cs s1done : List Char),
    ledCells [] s1done cs = List.range' (s1done.length + 1) cs.length 1 := by
  intro cs
  induction cs with
  | nil => intro s1done; rfl
  | cons c1 cs ih =>
    intro s1done
    rw [ledCells, led_nil_right, List.length_cons, ih,
      show (c1 :: cs).length = cs.length + 1 from rfl,
      show (c1 :: s1done).length = s1done.length + 1 from rfl,
      List.range'_succ]

theorem ledRow_nil_r2 (str1 : List Char) :
    ledRow str1 [] = List.range (str1.length + 1) := by
  rw [ledRow, led_nil_left, ledCells_nil_r2, List.range_eq_range',
    List.range'_succ]
  rfl

theorem levCells_spec (c2 : Char) (r2 : List Char) :
    ∀ (s1rest s1done : List Char),
      levCells c2 s1rest (led s1done r2) (led s1done (c2 :: r2))
        (ledCells r2 s1done s1rest) = ledCells (c2 :: r2) s1done s1rest := by
  intro s1rest
  induction s1rest with
  | nil => intro s1done; rfl
  | cons c1 cs ih =>
    intro s1done
    rw [ledCells, levCells, ledCells]
    have hcell : (if c2 = c1 then led s1done r2
        else 1 + min (led s1done r2) (min (led s1done (c2 :: r2))
          (led (c1 :: s1done) r2))) = led (c1 :: s1done) (c2 :: r2) := by
      rw [led_cons_cons]
      by_cases h : c1 = c2
      · rw [if_pos h, if_pos h.symm]
      · rw [if_neg h, if_neg (fun h2 => h h2.symm)]
    rw [hcell, ih (c1 :: s1done)]

theorem levRow_spec (str1 : List Char) (r2 : List Char) (c2 : Char) :
    levRow str1 (ledRow str1 r2) c2 (r2.length + 1) =
      ledRow str1 (c2 :: r2) := by
  rw [ledRow, levRow, ledRow]
  have hhead : r2.length + 1 = led [] (c2 :: r2) := by
    rw [led_nil_left, List.length_cons]
  rw [hhead]
  have h2 : led ([] : List Char) (c2 :: r2) = led [] (c2 :: r2) := rfl
  rw [levCells_spec c2 r2 str1 []]

theorem levRows_spec (str1 : List Char) :
    ∀ (rest r2 : List Char),
      levRows str1 rest (ledRow str1 r2) r2.length =
        ledRow str1 (rest.reverse ++ r2) := by
  intro rest
  induction rest with
  | nil => intro r2; rw [levRows]; rfl
  | cons c2 cs ih =>
    intro r2
    rw [levRows, levRow_spec str1 r2 c2]
    have h2 : r2.length + 1 = (c2 :: r2).length := rfl
    rw [h2, ih (c2 :: r2), List.reverse_cons, List.append_assoc,
      List.singleton_append]

theorem ledCells_getLastD : ∀ (cs s1done r2 : List Char) (d : Nat),
    (led s1done r2 :: ledCells r2 s1done cs).getLastD d =
      led (cs.reverse ++ s1done) r2 := by
  intro cs
  induction cs with
  | nil =>
    intro s1done r2 d
    rfl
  | cons c1 cs ih =>
    intro s1done r2 d
    rw [ledCells, List.getLastD_cons, ih (c1 :: s1done) r2, List.reverse_cons,
      List.append_assoc, List.singleton_append]

/-- The DP of the source equals the recurrence-defined distance of the
reversed strings. -/
theorem levenshteinDistance_eq_led (str1 str2 : List Char) :
    levenshteinDistance str1 str2 = led str1.reverse str2.reverse := by
  rw [levenshteinDistance, ← ledRow_nil_r2]
  have h0 : (0 : Nat) = ([] : List Char).length := rfl
  rw [h0, levRows_spec str1 str2 [], List.append_nil, ledRow,
    ledCells_getLastD, List.append_nil]

theorem editStep_rev {a b : List Char} (h : EditStep a b) :
    EditStep a.reverse b.reverse := by
  cases h with
  | ins pre suf c =>
    have h1 : (pre ++ suf).reverse = suf.reverse ++ pre.reverse :=
      List.reverse_append _ _
    have h2 : (pre ++ c :: suf).reverse =
        suf.reverse ++ c :: pre.reverse := by
      rw [List.reverse_append, List.reverse_cons, List.append_assoc,
        List.singleton_append]
    rw [h1, h2]
    exact EditStep.ins suf.reverse pre.reverse c
  | del pre suf c =>
    have h1 : (pre ++ suf).reverse = suf.reverse ++ pre.reverse :=
      List.reverse_append _ _
    have h2 : (pre ++ c :: suf).reverse =
        suf.reverse ++ c :: pre.reverse := by
      rw [List.reverse_append, List.reverse_cons, List.append_assoc,
        List.singleton_append]
    rw [h1, h2]
    exact EditStep.del suf.reverse pre.reverse c
  | sub pre suf c d =>
    have h2 : (pre ++ c :: suf).reverse =
        suf.reverse ++ c :: pre.reverse := by
      rw [List.reverse_append, List.reverse_cons, List.append_assoc,
        List.singleton_append]
    have h3 : (pre ++ d :: suf).reverse =
        suf.reverse ++ d :: pre.reverse := by
      rw [List.reverse_append, List.reverse_cons, List.append_assoc,
        List.singleton_append]
    rw [h2, h3]
    exact EditStep.sub suf.reverse pre.reverse c d

theorem editSeq_rev {n : Nat} {a b : List Char} (h : EditSeq n a b) :
    EditSeq n a.reverse b.reverse := by
  induction h with
  | refl a => exact EditSeq.refl a.reverse
  | step hstep _ ih => exact EditSeq.step (editStep_rev hstep) ih

/-- Claim C7 (confirmed): levenshteinDistance a b is the minimum number of
single-character insertions, deletions and substitutions (each of cost 1,
no transposition) transforming a into b: some edit script of exactly that
length exists, and no shorter script does. -/
theorem C7_levenshtein_minimal (a b : List Char) :
    EditSeq (levenshteinDistance a b) a b ∧
    ∀ n, EditSeq n a b → levenshteinDistance a b ≤ n := by
  rw [levenshteinDistance_eq_led]
  constructor
  · have h := editSeq_rev (editSeq_led a.reverse b.reverse)
    rw [List.reverse_reverse, List.reverse_reverse] at h
    exact h
  · intro n hn
    exact led_le_of_editSeq (editSeq_rev hn)

/-- Witness for C7: the one-deletion script from ab to b certifies
levenshteinDistance ab b is at most 1 (and the DP indeed computes 1). -/
theorem C7_witness :
    levenshteinDistance ['a', 'b'] ['b'] ≤ 1 ∧
    levenshteinDistance ['a', 'b'] ['b'] = 1 :=
  ⟨(C7_levenshtein_minimal ['a', 'b'] ['b']).2 1
      (EditSeq.step (EditStep.del [] ['b'] 'a') (EditSeq.refl ['b'])),
    by decide⟩

end MindKeep
